import Mathlib

/-!
Shallow embedding of the chess rules engine of the repository
(Source/chess/lib/core.py, Source/chess/lib/utils.py and
Source/chess/lib/init.py), together with theorems settling the
spec claims about it.

Conventions of the embedding:
* Python int coordinates become Lean Int (raw move generation goes out of
  the 1..8 range, exactly as in the source).
* side 0 / False is Lean false, side 1 / True is Lean true.
* a Python piece [x, y, t] becomes the structure Piece with fields x y t.
* Python piece-type strings become the inductive Kind; arbitrary other
  strings (reachable through the promotion parameter, which the source
  never validates) are represented by the constructor Kind.other.
* generators become eagerly-built lists in the same yield order.
* functions that can fall off the end of a Python function body returning
  None become Option-valued; Python truthiness of such a value is pyBool.
-/

namespace ChessLib

/-- Piece type: the six chess kinds of the source plus a constructor for
any other string value that can enter a piece record through the
unvalidated promotion parameter (Kind.other none models Python None,
Kind.other (some c) models a one-character string other than the six). -/
inductive Kind where
  | p | n | b | r | q | k
  | other (c : Option Char)
deriving DecidableEq, Repr

/-- Board coordinates, a Python [x, y] pair. -/
abbrev Pos := Int × Int

/-- Python piece record [x, y, t]. -/
structure Piece where
  x : Int
  y : Int
  t : Kind
deriving DecidableEq, Repr

/-- Position part piece[:2] of a piece record. -/
def Piece.pos (pc : Piece) : Pos := (pc.x, pc.y)

/-- Board: board[0] and board[1] of the source, the two sides' piece lists. -/
abbrev Board := List Piece × List Piece

/-- Python board[side] with side a boolean (False selects board[0]). -/
def bside (bd : Board) (s : Bool) : List Piece := cond s bd.2 bd.1

/-- Replace one side's piece list. -/
def bset (bd : Board) (s : Bool) (l : List Piece) : Board :=
  cond s (bd.1, l) (l, bd.2)

/-- Castling rights record flags[0]: four booleans in source order
(white a-side, white h-side, black a-side, black h-side). -/
abbrev Castle := Bool × Bool × Bool × Bool

/-- Game flags [castle, enP] as passed between makeMove and updateFlags;
the castle component is always an actual list there (the None default of
rawMoves is modelled by a separate Option parameter of rawMoves). -/
abbrev Flags := Castle × Option Pos

/-- Python truthiness of a value that is None, True or False. -/
def pyBool : Option Bool → Bool
  | none => false
  | some bv => bv

/-! ## Notation codec (Source/chess/lib/utils.py) -/

/-- LETTER list of utils.py: maps numeric columns 1..8 to letters a..h,
with the empty string at index 0 (modelled as strings = lists of chars). -/
def LETTER : List (List Char) :=
  [[], ['a'], ['b'], ['c'], ['d'], ['e'], ['f'], ['g'], ['h']]

/-- Python list indexing l[i] for an int index: negative indices count
from the end and out-of-range indexing is an error (none). -/
def pyGet {α : Type} (l : List α) (i : Int) : Option α :=
  if 0 ≤ i then l.get? i.toNat
  else if 0 ≤ (l.length : Int) + i then l.get? ((l.length : Int) + i).toNat
  else none

/-- Python str of an int (decimal digits, minus sign when negative). -/
def intStr (nv : Int) : List Char :=
  if nv < 0 then '-' :: Nat.toDigits 10 (-nv).toNat
  else Nat.toDigits 10 nv.toNat

/-- Python int of a single character: its digit value, or an error. -/
def digitVal (c : Char) : Option Int :=
  if '0' ≤ c ∧ c ≤ '9' then some ((c.toNat : Int) - 48) else none

/-- Python LETTER.index on a one-character string: index of its first
occurrence in LETTER, an error (none) when absent. -/
def letterIndex (c : Char) : Option Int :=
  (LETTER.findIdx? (fun sv => sv = [c])).map (fun ix => (ix : Int))

/-- encode of utils.py: LETTER[fro[0]] + str(9 - fro[1]) + LETTER[to[0]]
+ str(9 - to[1]), with the promotion character appended when given.
Errors of Python list indexing are propagated as none. -/
def encode (fro tgt : Pos) (promote : Option Char) : Option (List Char) :=
  match pyGet LETTER fro.1, pyGet LETTER tgt.1 with
  | some lf, some lt =>
      some (lf ++ intStr (9 - fro.2) ++ lt ++ intStr (9 - tgt.2) ++
        (match promote with | some c => [c] | none => []))
  | _, _ => none

/-- decode of utils.py: reads characters 0..3 as two coordinate pairs via
LETTER.index and 9 - int(digit); a 5th character (exactly length 5) is the
promotion, otherwise the promotion is None.  Python exceptions (short
input, unknown letter, non-digit rank) are propagated as none. -/
def decode (data : List Char) : Option (Pos × Pos × Option Char) :=
  match data with
  | c0 :: c1 :: c2 :: c3 :: rest =>
      match letterIndex c0, digitVal c1, letterIndex c2, digitVal c3 with
      | some i0, some d1, some i2, some d3 =>
          some ((i0, 9 - d1), (i2, 9 - d3),
            (match rest with | [pv] => some pv | _ => none))
      | _, _, _, _ => none
  | _ => none

/-! Codec roundtrip helper lemmas. -/

/-- Letter of a column 1..8, a helper for the roundtrip proof. -/
def colChar (x : Int) : Char :=
  if x = 1 then 'a' else if x = 2 then 'b' else if x = 3 then 'c'
  else if x = 4 then 'd' else if x = 5 then 'e' else if x = 6 then 'f'
  else if x = 7 then 'g' else 'h'

theorem pyGet_LETTER (x : Int) (h1 : 1 ≤ x) (h2 : x ≤ 8) :
    pyGet LETTER x = some [colChar x] ∧ letterIndex (colChar x) = some x := by
  interval_cases x <;> exact ⟨by decide, by decide⟩

/-- Digit character of the encoded rank 9 - y for y in 1..8. -/
def rankChar (y : Int) : Char :=
  if y = 1 then '8' else if y = 2 then '7' else if y = 3 then '6'
  else if y = 4 then '5' else if y = 5 then '4' else if y = 6 then '3'
  else if y = 7 then '2' else '1'

theorem intStr_rank (y : Int) (h1 : 1 ≤ y) (h2 : y ≤ 8) :
    intStr (9 - y) = [rankChar y] ∧ digitVal (rankChar y) = some (9 - y) := by
  interval_cases y <;> exact ⟨by decide, by decide⟩

/-- C1: decoding the encoding of (f, t, p) returns exactly (f, t, p), for
every origin f and destination t with coordinates in [1,8] and every
promotion p among none, q, r, b, n. -/
theorem decode_encode_roundtrip (fx fy tx ty : Int)
    (hfx1 : 1 ≤ fx) (hfx8 : fx ≤ 8) (hfy1 : 1 ≤ fy) (hfy8 : fy ≤ 8)
    (htx1 : 1 ≤ tx) (htx8 : tx ≤ 8) (hty1 : 1 ≤ ty) (hty8 : ty ≤ 8)
    (pv : Option Char)
    (hp : pv = none ∨ pv = some 'q' ∨ pv = some 'r' ∨ pv = some 'b' ∨
      pv = some 'n') :
    (encode (fx, fy) (tx, ty) pv).bind decode =
      some ((fx, fy), (tx, ty), pv) := by
  obtain ⟨hgf, hif⟩ := pyGet_LETTER fx hfx1 hfx8
  obtain ⟨hgt, hit⟩ := pyGet_LETTER tx htx1 htx8
  obtain ⟨hsf, hdf⟩ := intStr_rank fy hfy1 hfy8
  obtain ⟨hst, hdt⟩ := intStr_rank ty hty1 hty8
  have hy9 : (9 : Int) - (9 - fy) = fy := by ring
  have ht9 : (9 : Int) - (9 - ty) = ty := by ring
  rcases hp with rfl | rfl | rfl | rfl | rfl <;>
    simp [encode, hgf, hgt, hsf, hst, decode, hif, hit, hdf, hdt, hy9, ht9]

/-- Witness for the roundtrip theorem at a concrete move with promotion. -/
theorem decode_encode_roundtrip_witness :
    (encode (5, 2) (5, 1) (some 'q')).bind decode =
      some ((5, 2), (5, 1), some 'q') :=
  decode_encode_roundtrip 5 2 5 1 (by decide) (by decide) (by decide)
    (by decide) (by decide) (by decide) (by decide) (by decide)
    (some 'q') (Or.inr (Or.inl rfl))

/-! ## Board state helpers (core.py) -/

/-- getType of core.py: piece type of the first piece of the given side at
the given position, None when the square is empty for that side. -/
def getType (s : Bool) (bd : Board) (ps : Pos) : Option Kind :=
  ((bside bd s).find? (fun pc => pc.pos == ps)).map Piece.t

/-- isOccupied of core.py. -/
def isOccupied (s : Bool) (bd : Board) (ps : Pos) : Bool :=
  (getType s bd ps).isSome

/-- isEmpty of core.py on a list of positions: no piece of either side
occupies any of them. -/
def isEmpty (bd : Board) (psl : List Pos) : Bool :=
  psl.all (fun ps => !(isOccupied false bd ps) && !(isOccupied true bd ps))

/-! ## Raw move generation without flags (core.py rawMoves with its
default flags=[None, None], the form the check detector uses).  The
source has a single rawMoves whose castling block is skipped when
flags[0] is None; the embedding splits that into rawMovesNF (no flags)
and rawMoves (explicit flags) because the castling block calls the check
detector, which itself calls rawMoves with no flags. -/

/-- Sliding ray of core.py: yields each square along the direction,
including the first occupied one, then stops (range(1, 8) gives at most
seven steps). -/
def ray (bd : Board) : Int → Int → Int → Int → Nat → List Pos
  | _, _, _, _, 0 => []
  | x, y, dx, dy, Nat.succ fuel =>
      (x + dx, y + dy) ::
        (if isEmpty bd [(x + dx, y + dy)] then ray bd (x + dx) (y + dy) dx dy fuel
         else [])

/-- Pawn candidate destinations of rawMoves (direction depends on side;
the diagonal squares need an enemy piece or the en-passant flag). -/
def pawnMoves (s : Bool) (bd : Board) (x y : Int) (enP : Option Pos) :
    List Pos :=
  if !s then
    (if y = 7 && isEmpty bd [(x, 6), (x, 5)] then [(x, 5)] else []) ++
    (if isEmpty bd [(x, y - 1)] then [(x, y - 1)] else []) ++
    ([(x + 1, y - 1), (x - 1, y - 1)]).filter
      (fun dg => isOccupied true bd dg || enP == some dg)
  else
    (if y = 2 && isEmpty bd [(x, 3), (x, 4)] then [(x, 4)] else []) ++
    (if isEmpty bd [(x, y + 1)] then [(x, y + 1)] else []) ++
    ([(x + 1, y + 1), (x - 1, y + 1)]).filter
      (fun dg => isOccupied false bd dg || enP == some dg)

/-- Knight candidate destinations of rawMoves (eight offsets,
unconditional). -/
def knightMoves (x y : Int) : List Pos :=
  [(x + 1, y + 2), (x + 1, y - 2), (x - 1, y + 2), (x - 1, y - 2),
   (x + 2, y + 1), (x + 2, y - 1), (x - 2, y + 1), (x - 2, y - 1)]

/-- Bishop candidate destinations of rawMoves (four diagonal rays). -/
def bishopMoves (bd : Board) (x y : Int) : List Pos :=
  ray bd x y 1 1 7 ++ ray bd x y 1 (-1) 7 ++
  ray bd x y (-1) 1 7 ++ ray bd x y (-1) (-1) 7

/-- Rook candidate destinations of rawMoves (four straight rays). -/
def rookMoves (bd : Board) (x y : Int) : List Pos :=
  ray bd x y 1 0 7 ++ ray bd x y (-1) 0 7 ++
  ray bd x y 0 1 7 ++ ray bd x y 0 (-1) 7

/-- King adjacent candidate destinations of rawMoves, in source order. -/
def kingAdj (x y : Int) : List Pos :=
  [(x - 1, y - 1), (x, y - 1), (x + 1, y - 1), (x - 1, y),
   (x - 1, y + 1), (x, y + 1), (x + 1, y + 1), (x + 1, y)]

/-- rawMoves of core.py at its default flags=[None, None]: the pawn
diagonal test sees no en-passant flag and the king castling block is
skipped entirely. -/
def rawMovesNF (s : Bool) (bd : Board) (pc : Piece) : List Pos :=
  match pc.t with
  | Kind.p => pawnMoves s bd pc.x pc.y none
  | Kind.n => knightMoves pc.x pc.y
  | Kind.b => bishopMoves bd pc.x pc.y
  | Kind.r => rookMoves bd pc.x pc.y
  | Kind.q => bishopMoves bd pc.x pc.y ++ rookMoves bd pc.x pc.y
  | Kind.k => kingAdj pc.x pc.y
  | Kind.other _ => []

/-- isChecked of core.py: finds the first king of the side (None when the
side has no king), then reports whether its square appears among some
opposing piece's raw moves, generated with the default (absent) flags. -/
def isChecked (s : Bool) (bd : Board) : Option Bool :=
  ((bside bd s).find? (fun pc => pc.t == Kind.k)).map
    (fun kp => (bside bd (!s)).any (fun op => kp.pos ∈ rawMovesNF (!s) bd op))

/-! ## Move application (core.py move).  Python mutates the board in
place; the embedding threads it functionally.  The castling branch calls
move recursively; the recursion depth is at most three (a rook relocation
from square (8, d) to (6, d) can itself look like a two-file king move
and trigger the (1, d) to (4, d) relocation, which triggers nothing), so
the embedding uses a fuel argument and move runs with fuel 3. -/

/-- Removal of the first list element satisfying a predicate (Python
list.remove and the for/break removal loops); no-op when none matches,
where Python list.remove would raise instead (the difference is only
reachable from calls the engine itself never makes). -/
def removeFirstP (pr : Piece → Bool) : List Piece → List Piece
  | [] => []
  | pc :: l => if pr pc then l else pc :: removeFirstP pr l

/-- In-place relocation loop of move: the first piece whose position is
fro gets its position replaced by tgt, keeping its kind and list cell. -/
def reloc : List Piece → Pos → Pos → List Piece
  | [], _, _ => []
  | pc :: l, fro, tgt =>
      if pc.pos = fro then ⟨tgt.1, tgt.2, pc.t⟩ :: l
      else pc :: reloc l fro tgt

/-- Promotion rank UP of move (8 for side 1, 1 for side 0). -/
def up (s : Bool) : Int := if s then 8 else 1

/-- Home rank DOWN of move (1 for side 1, 8 for side 0). -/
def down (s : Bool) : Int := if s then 1 else 8

/-- ALLOWENP test of move, evaluated on the board before any mutation:
the origin rank is 4 + side, the file changes, and the destination is
empty. -/
def allowEnp (s : Bool) (bd : Board) (fro tgt : Pos) : Bool :=
  (fro.2 == 4 + (if s then (1 : Int) else 0)) && (tgt.1 != fro.1) &&
    isEmpty bd [tgt]

/-- Capture step of move: remove the first opposing piece sitting on the
destination square. -/
def capt (s : Bool) (bd : Board) (tgt : Pos) : Board :=
  bset bd (!s) (removeFirstP (fun pc => pc.pos == tgt) (bside bd (!s)))

/-- Relocation step of move: the first own piece at the origin gets its
position overwritten with the destination. -/
def relocStep (s : Bool) (bd : Board) (fro tgt : Pos) : Board :=
  bset bd s (reloc (bside bd s) fro tgt)

/-- Promotion step of move: remove the (just relocated) pawn record and
append the promoted piece at the same square. -/
def promoStep (s : Bool) (bd : Board) (tgt : Pos) (promote : Kind) :
    Board :=
  bset bd s
    (removeFirstP (fun pc => pc == ⟨tgt.1, tgt.2, Kind.p⟩) (bside bd s) ++
      [⟨tgt.1, up s, promote⟩])

/-- En-passant removal step of move: remove the opposing pawn on the
origin rank at the destination file. -/
def enpStep (s : Bool) (bd : Board) (fro tgt : Pos) : Board :=
  bset bd (!s)
    (removeFirstP (fun pc => pc == ⟨tgt.1, fro.2, Kind.p⟩) (bside bd (!s)))

/-- Fueled body of move of core.py.  Steps in source order: remove a
captured opposing piece at the destination; relocate the first own piece
at the origin; if that piece is a king moving two files, recursively move
the rook of the corresponding corner; if it is a pawn, promote on the
last rank and perform the geometric en-passant removal. -/
def moveF : Nat → Bool → Board → Pos → Pos → Kind → Board
  | 0, _, bd, _, _, _ => bd
  | Nat.succ fuel, s, bd, fro, tgt, promote =>
      let bd1 := capt s bd tgt
      match getType s bd1 fro with
      | none => bd1
      | some t0 =>
          let bd2 := relocStep s bd1 fro tgt
          let bd3 :=
            if t0 = Kind.k then
              (if fro.1 - tgt.1 = 2 then
                 moveF fuel s bd2 (1, down s) (4, down s) Kind.p
               else if tgt.1 - fro.1 = 2 then
                 moveF fuel s bd2 (8, down s) (6, down s) Kind.p
               else bd2)
            else bd2
          if t0 = Kind.p then
            let bd4 := if tgt.2 = up s then promoStep s bd3 tgt promote else bd3
            if allowEnp s bd fro tgt then enpStep s bd4 fro tgt else bd4
          else bd3

/-- move of core.py (the copy of the caller is implicit in the functional
embedding; the promotion parameter defaults to "p" at call sites that
omit it). -/
def move (s : Bool) (bd : Board) (fro tgt : Pos) (promote : Kind) : Board :=
  moveF 3 s bd fro tgt promote

/-- moveTest of core.py: the acting side's king is not in check after the
hypothetical move on a cloned board (promotion parameter left at its
default "p"); a None result of isChecked counts as not in check. -/
def moveTest (s : Bool) (bd : Board) (fro tgt : Pos) : Bool :=
  !pyBool (isChecked s (move s bd fro tgt Kind.p))

/-- Castling candidate block of rawMoves for kings, in source order:
both rights lists must be present (the castle parameter is the Option
modelling flags[0]), the generating side must not be in check, and each
of the four hard-coded direction blocks checks its rights boolean, the
emptiness of the squares between king and rook, and the safety of the
square the king passes through (via a one-step moveTest). -/
def castlePart (s : Bool) (bd : Board) (castle : Option Castle) : List Pos :=
  match castle with
  | none => []
  | some cs =>
      if !pyBool (isChecked s bd) then
        (if cs.1 && isEmpty bd [(2, 8), (3, 8), (4, 8)] &&
            moveTest false bd (5, 8) (4, 8) then [(3, 8)] else []) ++
        (if cs.2.1 && isEmpty bd [(6, 8), (7, 8)] &&
            moveTest false bd (5, 8) (6, 8) then [(7, 8)] else []) ++
        (if cs.2.2.1 && isEmpty bd [(2, 1), (3, 1), (4, 1)] &&
            moveTest true bd (5, 1) (4, 1) then [(3, 1)] else []) ++
        (if cs.2.2.2 && isEmpty bd [(6, 1), (7, 1)] &&
            moveTest true bd (5, 1) (6, 1) then [(7, 1)] else [])
      else []

/-- rawMoves of core.py with explicit flags (castle = flags[0] as an
Option, enP = flags[1]): per-kind candidate destinations ignoring bounds,
own-side occupancy and self-check. -/
def rawMoves (s : Bool) (bd : Board) (pc : Piece) (castle : Option Castle)
    (enP : Option Pos) : List Pos :=
  match pc.t with
  | Kind.p => pawnMoves s bd pc.x pc.y enP
  | Kind.n => knightMoves pc.x pc.y
  | Kind.b => bishopMoves bd pc.x pc.y
  | Kind.r => rookMoves bd pc.x pc.y
  | Kind.q => bishopMoves bd pc.x pc.y ++ rookMoves bd pc.x pc.y
  | Kind.k => castlePart s bd castle ++ kingAdj pc.x pc.y
  | Kind.other _ => []

/-- rawMoves at absent flags agrees with the no-flags variant used by the
check detector. -/
theorem rawMoves_none (s : Bool) (bd : Board) (pc : Piece) :
    rawMoves s bd pc none none = rawMovesNF s bd pc := by
  cases pc with
  | mk x y t => cases t <;> rfl

/-- availableMoves of core.py: raw candidates filtered to the 8x8 range,
to squares not occupied by the mover's own side, and to moves that pass
the self-check test. -/
def availableMoves (s : Bool) (bd : Board) (pc : Piece) (fl : Flags) :
    List Pos :=
  (rawMoves s bd pc (some fl.1) fl.2).filter
    (fun dst =>
      (decide (0 < dst.1) && decide (dst.1 < 9) && decide (0 < dst.2) &&
        decide (dst.2 < 9) && !isOccupied s bd dst) && moveTest s bd pc.pos dst)

/-- isValidMove of core.py: in range and not own-occupied, then the first
piece at the origin (its type may be None, in which case rawMoves yields
nothing and the function falls through to None) must raw-reach the
destination, in which case the self-check test decides. -/
def isValidMove (s : Bool) (bd : Board) (fl : Flags) (fro tgt : Pos) :
    Option Bool :=
  if 0 < tgt.1 ∧ tgt.1 < 9 ∧ 0 < tgt.2 ∧ tgt.2 < 9 ∧ !isOccupied s bd tgt then
    match getType s bd fro with
    | some t0 =>
        if tgt ∈ rawMoves s bd ⟨fro.1, fro.2, t0⟩ (some fl.1) fl.2 then
          some (moveTest s bd fro tgt)
        else none
    | none => none
  else none

/-- legalMoves of core.py: all [origin, destination] pairs over the
side's pieces via availableMoves. -/
def legalMoves (s : Bool) (bd : Board) (fl : Flags) : List (Pos × Pos) :=
  (bside bd s).flatMap
    (fun pc => (availableMoves s bd pc fl).map (fun dst => (pc.pos, dst)))

/-- isEnd of core.py: the side has no legal move. -/
def isEnd (s : Bool) (bd : Board) (fl : Flags) : Bool :=
  (legalMoves s bd fl).isEmpty

/-- updateFlags of core.py: each castling boolean survives only if the
specific king and rook still sit on their home squares of the post-move
board; the en-passant target is set exactly after a two-rank pawn move,
to the hard-coded intervening rank. -/
def updateFlags (s : Bool) (bd : Board) (fro tgt : Pos) (fl : Flags) :
    Flags :=
  let cs := fl.1
  let c0 := cs.1 && (decide (Piece.mk 5 8 Kind.k ∈ bd.1) &&
    decide (Piece.mk 1 8 Kind.r ∈ bd.1))
  let c1 := cs.2.1 && (decide (Piece.mk 5 8 Kind.k ∈ bd.1) &&
    decide (Piece.mk 8 8 Kind.r ∈ bd.1))
  let c2 := cs.2.2.1 && (decide (Piece.mk 5 1 Kind.k ∈ bd.2) &&
    decide (Piece.mk 1 1 Kind.r ∈ bd.2))
  let c3 := cs.2.2.2 && (decide (Piece.mk 5 1 Kind.k ∈ bd.2) &&
    decide (Piece.mk 8 1 Kind.r ∈ bd.2))
  let enP : Option Pos :=
    if getType s bd tgt == some Kind.p then
      (if fro.2 - tgt.2 = 2 then some (tgt.1, 6)
       else if tgt.2 - fro.2 = 2 then some (tgt.1, 3)
       else none)
    else none
  ((c0, c1, c2, c3), enP)

/-- makeMove of core.py: apply the move on a copy, update the flags from
the post-move board, and flip the side. -/
def makeMove (s : Bool) (bd : Board) (fro tgt : Pos) (fl : Flags)
    (promote : Kind) : Bool × Board × Flags :=
  let newbd := move s bd fro tgt promote
  (!s, newbd, updateFlags s newbd fro tgt fl)

/-- initBoardVars of utils.py: the standard initial position, side 0 to
move, all four castling rights, no en-passant target. -/
def initBoardVars : Bool × Board × Flags :=
  (false,
   ([⟨1, 7, Kind.p⟩, ⟨2, 7, Kind.p⟩, ⟨3, 7, Kind.p⟩, ⟨4, 7, Kind.p⟩,
     ⟨5, 7, Kind.p⟩, ⟨6, 7, Kind.p⟩, ⟨7, 7, Kind.p⟩, ⟨8, 7, Kind.p⟩,
     ⟨1, 8, Kind.r⟩, ⟨2, 8, Kind.n⟩, ⟨3, 8, Kind.b⟩, ⟨4, 8, Kind.q⟩,
     ⟨5, 8, Kind.k⟩, ⟨6, 8, Kind.b⟩, ⟨7, 8, Kind.n⟩, ⟨8, 8, Kind.r⟩],
    [⟨1, 2, Kind.p⟩, ⟨2, 2, Kind.p⟩, ⟨3, 2, Kind.p⟩, ⟨4, 2, Kind.p⟩,
     ⟨5, 2, Kind.p⟩, ⟨6, 2, Kind.p⟩, ⟨7, 2, Kind.p⟩, ⟨8, 2, Kind.p⟩,
     ⟨1, 1, Kind.r⟩, ⟨2, 1, Kind.n⟩, ⟨3, 1, Kind.b⟩, ⟨4, 1, Kind.q⟩,
     ⟨5, 1, Kind.k⟩, ⟨6, 1, Kind.b⟩, ⟨7, 1, Kind.n⟩, ⟨8, 1, Kind.r⟩]),
   ((true, true, true, true), none))

/-- Piece kind denoted by a decoded promotion character (any character
other than the six becomes the junk kind, as the source never checks). -/
def kindOfChar : Option Char → Kind
  | some 'p' => Kind.p
  | some 'n' => Kind.n
  | some 'b' => Kind.b
  | some 'r' => Kind.r
  | some 'q' => Kind.q
  | some 'k' => Kind.k
  | cv => Kind.other cv

/-- convertMoves of chess/lib init: start from the initial state and
apply every decoded move with makeMove, without any legality check; the
only failure mode is a decode exception (modelled as none). -/
def convertMoves (ms : List (List Char)) : Option (Bool × Board × Flags) :=
  ms.foldlM
    (fun st mv =>
      (decode mv).map
        (fun dc =>
          makeMove st.1 st.2.1 dc.1 dc.2.1 st.2.2 (kindOfChar dc.2.2)))
    initBoardVars

/-! ## Generic list facts used throughout -/

theorem find?_decomp {α : Type} {pr : α → Bool} :
    ∀ {l : List α} {a : α}, l.find? pr = some a →
      ∃ l1 l2, l = l1 ++ a :: l2 ∧ ∀ bv ∈ l1, pr bv = false
  | [], a, h => by simp [List.find?] at h
  | c :: l, a, h => by
      by_cases hc : pr c
      · refine ⟨[], l, ?_, by simp⟩
        simp [List.find?, hc] at h
        simp [h]
      · have hc' : pr c = false := by simpa using hc
        rw [List.find?, hc'] at h
        obtain ⟨l1, l2, hl, hall⟩ := find?_decomp h
        exact ⟨c :: l1, l2, by simp [hl], by
          intro bv hb
          rcases List.mem_cons.mp hb with rfl | hb
          · exact hc'
          · exact hall bv hb⟩

theorem removeFirstP_sublist (pr : Piece → Bool) :
    ∀ l : List Piece, (removeFirstP pr l).Sublist l
  | [] => List.Sublist.refl []
  | pc :: l => by
      rw [removeFirstP]
      split
      · exact List.sublist_cons_self pc l
      · exact List.Sublist.cons₂ pc (removeFirstP_sublist pr l)

theorem removeFirstP_eq_self {pr : Piece → Bool} :
    ∀ {l : List Piece}, (∀ a ∈ l, pr a = false) → removeFirstP pr l = l
  | [], _ => rfl
  | pc :: l, h => by
      rw [removeFirstP]
      have hpc : pr pc = false := h pc (List.mem_cons_self pc l)
      simp only [hpc, Bool.false_eq_true, if_false]
      rw [removeFirstP_eq_self (fun a ha => h a (List.mem_cons_of_mem pc ha))]

theorem removeFirstP_append_first {pr : Piece → Bool} {x : Piece}
    (hx : pr x = true) :
    ∀ {l1 : List Piece} (l2 : List Piece), (∀ a ∈ l1, pr a = false) →
      removeFirstP pr (l1 ++ x :: l2) = l1 ++ l2
  | [], l2, _ => by simp [removeFirstP, hx]
  | c :: l1, l2, h => by
      have hc : pr c = false := h c (List.mem_cons_self c l1)
      simp only [List.cons_append, removeFirstP, hc, Bool.false_eq_true,
        if_false, List.append_eq]
      rw [removeFirstP_append_first hx l2
        (fun a ha => h a (List.mem_cons_of_mem c ha))]

theorem mem_removeFirstP {pr : Piece → Bool} {a : Piece} :
    ∀ {l : List Piece}, a ∈ l → pr a = false → a ∈ removeFirstP pr l
  | [], h, _ => absurd h (List.not_mem_nil a)
  | c :: l, h, ha => by
      rw [removeFirstP]
      split
      · rcases List.mem_cons.mp h with rfl | hm
        · simp_all
        · exact hm
      · rcases List.mem_cons.mp h with rfl | hm
        · exact List.mem_cons_self a _
        · exact List.mem_cons_of_mem c (mem_removeFirstP hm ha)

theorem reloc_append {fro tgt : Pos} {t0 : Kind} :
    ∀ {l1 : List Piece} (l2 : List Piece), (∀ pc ∈ l1, pc.pos ≠ fro) →
      reloc (l1 ++ ⟨fro.1, fro.2, t0⟩ :: l2) fro tgt =
        l1 ++ ⟨tgt.1, tgt.2, t0⟩ :: l2
  | [], l2, _ => by simp [reloc, Piece.pos]
  | c :: l1, l2, h => by
      have hc : c.pos ≠ fro := h c (List.mem_cons_self c l1)
      simp only [List.cons_append, reloc, hc, if_false, List.append_eq]
      rw [reloc_append l2 (fun a ha => h a (List.mem_cons_of_mem c ha))]

theorem reloc_eq_self {fro tgt : Pos} :
    ∀ {l : List Piece}, (∀ pc ∈ l, pc.pos ≠ fro) → reloc l fro tgt = l
  | [], _ => rfl
  | c :: l, h => by
      have hc : c.pos ≠ fro := h c (List.mem_cons_self c l)
      simp only [reloc, hc, if_false]
      rw [reloc_eq_self (fun a ha => h a (List.mem_cons_of_mem c ha))]

theorem reloc_mem_cases {fro tgt : Pos} :
    ∀ {l : List Piece} {pc : Piece}, pc ∈ reloc l fro tgt →
      pc ∈ l ∨ ∃ q0 ∈ l, q0.pos = fro ∧ pc = ⟨tgt.1, tgt.2, q0.t⟩
  | [], pc, h => absurd h (List.not_mem_nil pc)
  | c :: l, pc, h => by
      rw [reloc] at h
      split at h
      · rcases List.mem_cons.mp h with rfl | hm
        · exact Or.inr ⟨c, List.mem_cons_self c l, by assumption, rfl⟩
        · exact Or.inl (List.mem_cons_of_mem c hm)
      · rcases List.mem_cons.mp h with rfl | hm
        · exact Or.inl (List.mem_cons_self pc l)
        · rcases reloc_mem_cases hm with hin | ⟨q0, hq0, hqp, hpc⟩
          · exact Or.inl (List.mem_cons_of_mem c hin)
          · exact Or.inr ⟨q0, List.mem_cons_of_mem c hq0, hqp, hpc⟩

/-! ## Board accessor facts -/

theorem bside_bset_same (bd : Board) (s : Bool) (l : List Piece) :
    bside (bset bd s l) s = l := by cases s <;> rfl

theorem bside_bset_not (bd : Board) (s : Bool) (l : List Piece) :
    bside (bset bd (!s) l) s = bside bd s := by cases s <;> rfl

theorem bside_bset_not' (bd : Board) (s : Bool) (l : List Piece) :
    bside (bset bd s l) (!s) = bside bd (!s) := by cases s <;> rfl

theorem getType_eq_none_iff {s : Bool} {bd : Board} {ps : Pos} :
    getType s bd ps = none ↔ ∀ pc ∈ bside bd s, pc.pos ≠ ps := by
  simp [getType, List.find?_eq_none]

theorem isSome_false_iff {α : Type} {o : Option α} :
    o.isSome = false ↔ o = none := by cases o <;> simp

theorem isOccupied_false_iff {s : Bool} {bd : Board} {ps : Pos} :
    isOccupied s bd ps = false ↔ ∀ pc ∈ bside bd s, pc.pos ≠ ps := by
  rw [isOccupied, isSome_false_iff]
  exact getType_eq_none_iff

theorem isEmpty_one_iff {bd : Board} {ps : Pos} :
    isEmpty bd [ps] = true ↔
      (∀ pc ∈ bd.1, pc.pos ≠ ps) ∧ ∀ pc ∈ bd.2, pc.pos ≠ ps := by
  have h1 : bside bd false = bd.1 := rfl
  have h2 : bside bd true = bd.2 := rfl
  simp [isEmpty, ← h1, ← h2, isOccupied_false_iff]

theorem isEmpty_mem {bd : Board} {psl : List Pos} {ps : Pos}
    (h : isEmpty bd psl = true) (hm : ps ∈ psl) :
    (∀ pc ∈ bd.1, pc.pos ≠ ps) ∧ ∀ pc ∈ bd.2, pc.pos ≠ ps := by
  rw [isEmpty, List.all_eq_true] at h
  have := h ps hm
  rw [Bool.and_eq_true, Bool.not_eq_true', Bool.not_eq_true'] at this
  have h1 : bside bd false = bd.1 := rfl
  have h2 : bside bd true = bd.2 := rfl
  constructor
  · rw [← h1]; exact isOccupied_false_iff.mp this.1
  · rw [← h2]; exact isOccupied_false_iff.mp this.2

theorem getType_decomp {s : Bool} {bd : Board} {ps : Pos} {t0 : Kind}
    (h : getType s bd ps = some t0) :
    ∃ l1 l2, bside bd s = l1 ++ ⟨ps.1, ps.2, t0⟩ :: l2 ∧
      ∀ pc ∈ l1, pc.pos ≠ ps := by
  rw [getType, Option.map_eq_some'] at h
  obtain ⟨pc, hfind, ht⟩ := h
  have hpos : pc.pos = ps := by
    have := List.find?_some hfind
    simpa using this
  obtain ⟨l1, l2, hl, hall⟩ := find?_decomp hfind
  have hpc : pc = ⟨ps.1, ps.2, t0⟩ := by
    cases pc
    cases ps
    simp only [Piece.pos, Prod.mk.injEq] at hpos
    simp_all
  refine ⟨l1, l2, by rw [hl, hpc], ?_⟩
  intro q hq
  have := hall q hq
  simpa using this

/-! ## C2: soundness of availableMoves -/

/-- C2: every destination yielded by availableMoves is inside [1,8] in
both coordinates, is not occupied by the mover's own side, and leaves the
mover's own king unattacked after applying the move (with the default
promotion) to a copy of the board. -/
theorem availableMoves_sound (s : Bool) (bd : Board) (pc : Piece)
    (fl : Flags) (dst : Pos) (h : dst ∈ availableMoves s bd pc fl) :
    (1 ≤ dst.1 ∧ dst.1 ≤ 8 ∧ 1 ≤ dst.2 ∧ dst.2 ≤ 8) ∧
      isOccupied s bd dst = false ∧
      pyBool (isChecked s (move s bd pc.pos dst Kind.p)) = false := by
  rw [availableMoves, List.mem_filter] at h
  obtain ⟨-, hpred⟩ := h
  rw [Bool.and_eq_true, Bool.and_eq_true, Bool.and_eq_true, Bool.and_eq_true,
    Bool.and_eq_true] at hpred
  obtain ⟨⟨⟨⟨⟨h1, h2⟩, h3⟩, h4⟩, hocc⟩, hmt⟩ := hpred
  rw [decide_eq_true_eq] at h1 h2 h3 h4
  rw [Bool.not_eq_true'] at hocc
  rw [moveTest, Bool.not_eq_true'] at hmt
  exact ⟨⟨by omega, by omega, by omega, by omega⟩, hocc, hmt⟩

/-! ## Characterizations of one move step, by the moved piece's kind -/

theorem moveF_succ_none {fuel : Nat} {s : Bool} {bd : Board}
    {fro tgt : Pos} {pr : Kind} (h : getType s (capt s bd tgt) fro = none) :
    moveF (fuel + 1) s bd fro tgt pr = capt s bd tgt := by
  simp [moveF, h]

theorem moveF_succ_plain {fuel : Nat} {s : Bool} {bd : Board}
    {fro tgt : Pos} {pr : Kind} {t0 : Kind}
    (h : getType s (capt s bd tgt) fro = some t0)
    (hk : t0 ≠ Kind.k) (hp : t0 ≠ Kind.p) :
    moveF (fuel + 1) s bd fro tgt pr =
      relocStep s (capt s bd tgt) fro tgt := by
  simp [moveF, h, hk, hp]

/-- Board after the relocation-and-promotion part of a pawn move (a
name for the composite used by the pawn characterization below). -/
def pawnBd4 (s : Bool) (bd : Board) (fro tgt : Pos) (pr : Kind) : Board :=
  if tgt.2 = up s then
    promoStep s (relocStep s (capt s bd tgt) fro tgt) tgt pr
  else relocStep s (capt s bd tgt) fro tgt

theorem moveF_succ_pawn {fuel : Nat} {s : Bool} {bd : Board}
    {fro tgt : Pos} {pr : Kind}
    (h : getType s (capt s bd tgt) fro = some Kind.p) :
    moveF (fuel + 1) s bd fro tgt pr =
      (if allowEnp s bd fro tgt then
        enpStep s (pawnBd4 s bd fro tgt pr) fro tgt
       else pawnBd4 s bd fro tgt pr) := by
  simp [moveF, h, pawnBd4]

theorem moveF_succ_king_still {fuel : Nat} {s : Bool} {bd : Board}
    {fro tgt : Pos} {pr : Kind}
    (h : getType s (capt s bd tgt) fro = some Kind.k)
    (h2 : fro.1 - tgt.1 ≠ 2) (h3 : tgt.1 - fro.1 ≠ 2) :
    moveF (fuel + 1) s bd fro tgt pr =
      relocStep s (capt s bd tgt) fro tgt := by
  simp [moveF, h, h2, h3]

theorem moveF_succ_king_aside {fuel : Nat} {s : Bool} {bd : Board}
    {fro tgt : Pos} {pr : Kind}
    (h : getType s (capt s bd tgt) fro = some Kind.k)
    (h2 : fro.1 - tgt.1 = 2) :
    moveF (fuel + 1) s bd fro tgt pr =
      moveF fuel s (relocStep s (capt s bd tgt) fro tgt)
        (1, down s) (4, down s) Kind.p := by
  simp [moveF, h, h2]

theorem moveF_succ_king_hside {fuel : Nat} {s : Bool} {bd : Board}
    {fro tgt : Pos} {pr : Kind}
    (h : getType s (capt s bd tgt) fro = some Kind.k)
    (h2 : fro.1 - tgt.1 ≠ 2) (h3 : tgt.1 - fro.1 = 2) :
    moveF (fuel + 1) s bd fro tgt pr =
      moveF fuel s (relocStep s (capt s bd tgt) fro tgt)
        (8, down s) (6, down s) Kind.p := by
  simp [moveF, h, h2, h3]

theorem bside_capt_same (s : Bool) (bd : Board) (tgt : Pos) :
    bside (capt s bd tgt) s = bside bd s := by
  rw [capt, bside_bset_not]

theorem getType_capt_same (s : Bool) (bd : Board) (tgt ps : Pos) :
    getType s (capt s bd tgt) ps = getType s bd ps := by
  rw [getType, bside_capt_same, getType]

/-! ## C10: a kingless side is never reported in check -/

theorem countP_pieces_unique {pr : Piece → Bool} :
    ∀ {l : List Piece} {a bv : Piece}, l.countP pr = 1 → a ∈ l →
      pr a = true → bv ∈ l → pr bv = true → a = bv
  | [], a, bv, _, ha, _, _, _ => absurd ha (List.not_mem_nil a)
  | c :: l, a, bv, hc, ha, hpa, hb, hpb => by
      rw [List.countP_cons] at hc
      by_cases hpc : pr c = true
      · simp only [hpc, if_true] at hc
        have hz : l.countP pr = 0 := by omega
        have hnone : ∀ x ∈ l, ¬ pr x = true := List.countP_eq_zero.mp hz
        have ha' : a = c := by
          rcases List.mem_cons.mp ha with rfl | hm
          · rfl
          · exact absurd hpa (hnone a hm)
        have hb' : bv = c := by
          rcases List.mem_cons.mp hb with rfl | hm
          · rfl
          · exact absurd hpb (hnone bv hm)
        rw [ha', hb']
      · have hpc' : pr c = false := by simpa using hpc
        simp only [hpc', Bool.false_eq_true, if_false, add_zero] at hc
        have ha' : a ∈ l := by
          rcases List.mem_cons.mp ha with rfl | hm
          · rw [hpa] at hpc'; cases hpc'
          · exact hm
        have hb' : bv ∈ l := by
          rcases List.mem_cons.mp hb with rfl | hm
          · rw [hpb] at hpc'; cases hpc'
          · exact hm
        exact countP_pieces_unique hc ha' hpa hb' hpb

theorem find?_eq_of_unique {pr : Piece → Bool} {l : List Piece} {a : Piece}
    (hc : l.countP pr = 1) (ha : a ∈ l) (hpa : pr a = true) :
    l.find? pr = some a := by
  have hsome : (l.find? pr).isSome := by
    rw [List.find?_isSome]
    exact ⟨a, ha, hpa⟩
  obtain ⟨bv, hb⟩ := Option.isSome_iff_exists.mp hsome
  have hbm : bv ∈ l := List.mem_of_find?_eq_some hb
  have hbp : pr bv = true := List.find?_some hb
  have heq := countP_pieces_unique hc ha hpa hbm hbp
  rw [hb, heq]

theorem find?_king_eq_none {l : List Piece}
    (h : ∀ pc ∈ l, pc.t ≠ Kind.k) :
    l.find? (fun pc => pc.t == Kind.k) = none := by
  rw [List.find?_eq_none]
  intro pc hm
  simpa using h pc hm

/-- Kinds present on one side after a move step: relocation preserves
them, promotion adds only the promotion kind, removals only remove. -/
theorem moveF_kingless {s : Bool} {pr : Kind} (hpr : pr ≠ Kind.k) :
    ∀ (fuel : Nat) (bd : Board) (fro tgt : Pos),
      (∀ pc ∈ bside bd s, pc.t ≠ Kind.k) →
      ∀ pc ∈ bside (moveF fuel s bd fro tgt pr) s, pc.t ≠ Kind.k := by
  intro fuel
  cases fuel with
  | zero => intro bd fro tgt h; exact h
  | succ fuel =>
      intro bd fro tgt h
      have hcap : ∀ pc ∈ bside (capt s bd tgt) s, pc.t ≠ Kind.k := by
        rw [bside_capt_same]; exact h
      cases hgt : getType s (capt s bd tgt) fro with
      | none => rw [moveF_succ_none hgt]; exact hcap
      | some t0 =>
          have ht0 : t0 ≠ Kind.k := by
            rw [getType, Option.map_eq_some'] at hgt
            obtain ⟨pc, hfind, ht⟩ := hgt
            have := hcap pc (List.mem_of_find?_eq_some hfind)
            rw [ht] at this
            exact this
          have hrel : ∀ pc ∈ bside (relocStep s (capt s bd tgt) fro tgt) s,
              pc.t ≠ Kind.k := by
            rw [relocStep, bside_bset_same]
            intro pc hm
            rcases reloc_mem_cases hm with hin | ⟨q0, hq0, -, hpc⟩
            · exact hcap pc hin
            · rw [hpc]; exact hcap q0 hq0
          by_cases hp0 : t0 = Kind.p
          · subst hp0
            rw [moveF_succ_pawn hgt]
            have hbd4 : ∀ pc ∈ bside (pawnBd4 s bd fro tgt pr) s,
                pc.t ≠ Kind.k := by
              rw [pawnBd4]
              split
              · rw [promoStep, bside_bset_same]
                intro pc hm
                rcases List.mem_append.mp hm with hin | hone
                · exact hrel pc
                    (List.Sublist.mem hin (removeFirstP_sublist _ _))
                · rw [List.mem_singleton] at hone
                  rw [hone]
                  exact hpr
              · exact hrel
            split
            · rw [enpStep, bside_bset_not]
              exact hbd4
            · exact hbd4
          · rw [moveF_succ_plain hgt ht0 hp0]
            exact hrel

/-- C10: when a side has no king at all, isChecked returns None rather
than a boolean, and moveTest, which negates the (falsy) result, accepts
any hypothetical move for that side. -/
theorem isChecked_kingless (s : Bool) (bd : Board)
    (h : ∀ pc ∈ bside bd s, pc.t ≠ Kind.k) :
    isChecked s bd = none ∧
      ∀ fro tgt : Pos, moveTest s bd fro tgt = true := by
  constructor
  · rw [isChecked, find?_king_eq_none h, Option.map_none']
  · intro fro tgt
    have hmv : ∀ pc ∈ bside (move s bd fro tgt Kind.p) s, pc.t ≠ Kind.k :=
      moveF_kingless (by decide) 3 bd fro tgt h
    rw [moveTest, isChecked, find?_king_eq_none hmv, Option.map_none']
    rfl

/-- Witness: on a board whose side 0 consists of a single rook, isChecked
returns None and an arbitrary rook move passes moveTest. -/
theorem isChecked_kingless_witness :
    isChecked false ([⟨1, 1, Kind.r⟩], [⟨5, 5, Kind.k⟩]) = none ∧
      moveTest false ([⟨1, 1, Kind.r⟩], [⟨5, 5, Kind.k⟩]) (1, 1) (1, 5)
        = true := by
  have h := isChecked_kingless false ([⟨1, 1, Kind.r⟩], [⟨5, 5, Kind.k⟩])
    (by decide)
  exact ⟨h.1, h.2 (1, 1) (1, 5)⟩

/-! ## C3: the check detector agrees with attack scanning -/

/-- C3: on a board whose given side has exactly one king, isChecked
reports true exactly when that king's square appears among the raw
destinations of some opposing piece generated with both flags absent (so
the castling block of the generator is skipped entirely). -/
theorem isChecked_iff_attacked (s : Bool) (bd : Board) (kp : Piece)
    (hmem : kp ∈ bside bd s) (hk : kp.t = Kind.k)
    (huniq : (bside bd s).countP (fun pc => pc.t == Kind.k) = 1) :
    isChecked s bd = some true ↔
      ∃ op ∈ bside bd (!s), kp.pos ∈ rawMoves (!s) bd op none none := by
  have hfind : (bside bd s).find? (fun pc => pc.t == Kind.k) = some kp :=
    find?_eq_of_unique huniq hmem (by simp [hk])
  rw [isChecked, hfind, Option.map_some']
  simp only [Option.some_inj, List.any_eq_true, decide_eq_true_eq,
    rawMoves_none]

/-- Witness: a board with a lone white king on e1-file internal (5, 8)
and a black queen on (5, 3) giving check along the file. -/
theorem isChecked_iff_attacked_witness :
    isChecked false ([⟨5, 8, Kind.k⟩], [⟨5, 3, Kind.q⟩]) = some true :=
  (isChecked_iff_attacked false ([⟨5, 8, Kind.k⟩], [⟨5, 3, Kind.q⟩])
    ⟨5, 8, Kind.k⟩ (by decide) rfl (by decide)).mpr
    ⟨⟨5, 3, Kind.q⟩, by decide, by decide⟩

/-! ## C5: castling flags are monotone along any game -/

/-- Move record for driving makeMove: origin, destination, promotion. -/
abbrev Mv := Pos × Pos × Kind

/-- One makeMove step on a full game state. -/
def stepGame (st : Bool × Board × Flags) (m : Mv) : Bool × Board × Flags :=
  makeMove st.1 st.2.1 m.1 m.2.1 st.2.2 m.2.2

/-- Iterated makeMove. -/
def playGame (st : Bool × Board × Flags) (ms : List Mv) :
    Bool × Board × Flags :=
  ms.foldl stepGame st

/-- Projection of one of the four castling booleans. -/
def castleGet (cs : Castle) : Fin 4 → Bool
  | ⟨0, _⟩ => cs.1
  | ⟨1, _⟩ => cs.2.1
  | ⟨2, _⟩ => cs.2.2.1
  | ⟨3, _⟩ => cs.2.2.2

theorem updateFlags_castle_mono (s : Bool) (bd : Board) (fro tgt : Pos)
    (fl : Flags) (iv : Fin 4)
    (h : castleGet (updateFlags s bd fro tgt fl).1 iv = true) :
    castleGet fl.1 iv = true := by
  rcases iv with ⟨iv, hiv⟩
  interval_cases iv <;>
    · simp only [updateFlags, castleGet, Bool.and_eq_true] at h ⊢
      exact h.1

theorem playGame_castle_mono (iv : Fin 4) :
    ∀ (ms : List Mv) (st : Bool × Board × Flags),
      castleGet (playGame st ms).2.2.1 iv = true →
      castleGet st.2.2.1 iv = true
  | [], _, h => h
  | m :: ms, st, h => by
      have hstep := playGame_castle_mono iv ms (stepGame st m) h
      exact updateFlags_castle_mono _ _ _ _ _ iv hstep

/-- C5: in a game driven from the initial state by makeMove alone, a
castling flag that is false after some moves stays false after any
further moves; updateFlags never turns a flag back on. -/
theorem castle_flag_stays_false (ms1 ms2 : List Mv) (iv : Fin 4)
    (h : castleGet (playGame initBoardVars ms1).2.2.1 iv = false) :
    castleGet (playGame initBoardVars (ms1 ++ ms2)).2.2.1 iv = false := by
  rw [playGame, List.foldl_append]
  by_contra hcon
  rw [Bool.not_eq_false] at hcon
  have := playGame_castle_mono iv ms2 (playGame initBoardVars ms1) hcon
  rw [h] at this
  cases this

/-- Witness: after the king leaves its home square, the first castling
flag is off and stays off through a further move. -/
theorem castle_flag_stays_false_witness :
    castleGet (playGame initBoardVars
      [((5, 8), (5, 7), Kind.q), ((1, 2), (1, 3), Kind.q)]).2.2.1 0
        = false :=
  castle_flag_stays_false [((5, 8), (5, 7), Kind.q)]
    [((1, 2), (1, 3), Kind.q)] 0 (by decide)

/-- Witness: from the initial position, the queenside knight's move to
(1, 6) is available and hence in range, on a free square, and safe. -/
theorem availableMoves_sound_witness :
    (1 ≤ (1 : Int) ∧ (1 : Int) ≤ 8 ∧ 1 ≤ (6 : Int) ∧ (6 : Int) ≤ 8) ∧
      isOccupied false initBoardVars.2.1 (1, 6) = false ∧
      pyBool (isChecked false
        (move false initBoardVars.2.1 (Piece.pos ⟨2, 8, Kind.n⟩) (1, 6)
          Kind.p)) = false :=
  availableMoves_sound false initBoardVars.2.1 ⟨2, 8, Kind.n⟩
    initBoardVars.2.2 (1, 6) (by decide)

/-! ## C8: twenty legal moves from the initial position -/

/-- C8: the legal-move enumeration for side 0 at the initial state yields
exactly 20 pairs, all distinct. -/
theorem legalMoves_initial_twenty :
    (legalMoves false initBoardVars.2.1 initBoardVars.2.2).length = 20 ∧
      (legalMoves false initBoardVars.2.1 initBoardVars.2.2).Nodup := by
  constructor
  · decide
  · decide

/-! ## C9: replay applies illegal moves without failing -/

/-- C9 (divergence witness): the stored move e2e5 is not a legal move in
the initial position (the legality check is falsy on it), yet replay
reconstruction silently succeeds and produces a state in which the pawn
stands on the illegal destination square. -/
theorem convertMoves_silent_on_illegal :
    pyBool (isValidMove false initBoardVars.2.1 initBoardVars.2.2
        (5, 7) (5, 4)) = false ∧
      decode ['e', '2', 'e', '5'] = some ((5, 7), (5, 4), none) ∧
      (convertMoves [['e', '2', 'e', '5']]).isSome = true ∧
      (convertMoves [['e', '2', 'e', '5']]).bind
        (fun st => getType false st.2.1 (5, 4)) = some Kind.p := by
  refine ⟨by decide, by decide, by decide, by decide⟩

/-! ## C6: conditions for yielding a castling candidate -/

/-- Castling destination square of a side and direction (direction false
is the a-side rook, true the h-side rook), as hard-coded in the four
castling blocks of rawMoves. -/
def castleDest (s dir : Bool) : Pos :=
  ((if dir then 7 else 3), (if s then 1 else 8))

/-- Squares between king and rook whose emptiness the corresponding
castling block of rawMoves requires. -/
def castleBetween (s dir : Bool) : List Pos :=
  if s then (if dir then [(6, 1), (7, 1)] else [(2, 1), (3, 1), (4, 1)])
  else (if dir then [(6, 8), (7, 8)] else [(2, 8), (3, 8), (4, 8)])

/-- Square the king passes through toward the rook, whose safety the
corresponding castling block of rawMoves tests with a one-step moveTest. -/
def castlePass (s dir : Bool) : Pos :=
  ((if dir then 6 else 4), (if s then 1 else 8))

/-- Rights boolean of flags[0] that gates the corresponding castling
block of rawMoves. -/
def castleRight (cs : Castle) (s dir : Bool) : Bool :=
  if s then (if dir then cs.2.2.2 else cs.2.2.1)
  else (if dir then cs.2.1 else cs.1)

theorem mem_bool_ite_singleton {c : Bool} {a x : Pos} :
    (x ∈ (if c = true then [a] else ([] : List Pos))) ↔
      c = true ∧ x = a := by
  cases c <;> simp

/-- C6: a castling destination of a side and direction appears among the
raw moves generated for that side's home-square king only if the rights
record is present, its corresponding boolean is set, the squares between
king and rook are empty, the generating side is not currently in check,
and the square the king passes through survives the one-step moveTest. -/
theorem castling_only_if (s dir : Bool) (bd : Board)
    (castle : Option Castle) (enP : Option Pos)
    (h : castleDest s dir ∈
      rawMoves s bd ⟨5, down s, Kind.k⟩ castle enP) :
    ∃ cs, castle = some cs ∧ castleRight cs s dir = true ∧
      isEmpty bd (castleBetween s dir) = true ∧
      pyBool (isChecked s bd) = false ∧
      moveTest s bd (5, down s) (castlePass s dir) = true := by
  rcases castle with _ | cs
  · exfalso
    revert h
    cases s <;> cases dir <;>
      · rw [rawMoves]
        simp only [castlePart, List.nil_append]
        decide
  · refine ⟨cs, rfl, ?_⟩
    rw [rawMoves] at h
    cases hch : pyBool (isChecked s bd) with
    | true =>
        exfalso
        rw [castlePart, hch] at h
        simp only [Bool.not_true, Bool.false_eq_true, if_false,
          List.nil_append] at h
        revert h
        cases s <;> cases dir <;> decide
    | false =>
        rw [castlePart, hch] at h
        simp only [Bool.not_false, if_true, List.append_assoc,
          List.mem_append, mem_bool_ite_singleton, kingAdj] at h
        cases s <;> cases dir <;>
          · simp only [castleDest, castleBetween, castlePass, castleRight,
              down, if_true, if_false, Bool.false_eq_true,
              Bool.true_eq_false, Bool.and_eq_true] at h ⊢
            simp at h
            obtain ⟨⟨hr, he⟩, hm⟩ := h
            exact ⟨hr, he, by trivial, hm⟩

/-- Witness: on a board with the white king and a-rook at home and the
squares between them free, the a-side castling destination is raw-yielded,
so by the theorem the gating conditions hold there. -/
theorem castling_only_if_witness :
    pyBool (isChecked false
      ([⟨5, 8, Kind.k⟩, ⟨1, 8, Kind.r⟩], [⟨5, 1, Kind.k⟩])) = false ∧
    moveTest false ([⟨5, 8, Kind.k⟩, ⟨1, 8, Kind.r⟩], [⟨5, 1, Kind.k⟩])
      (5, down false) (castlePass false false) = true := by
  obtain ⟨cs, -, -, -, hch, hmt⟩ :=
    castling_only_if false false
      ([⟨5, 8, Kind.k⟩, ⟨1, 8, Kind.r⟩], [⟨5, 1, Kind.k⟩])
      (some (true, true, true, true)) none (by decide)
  exact ⟨hch, hmt⟩

/-! ## C7: default promotion produces a queen -/

theorem getType_enpStep_same (s : Bool) (bd : Board) (fro tgt ps : Pos) :
    getType s (enpStep s bd fro tgt) ps = getType s bd ps := by
  rw [getType, enpStep, bside_bset_not, getType]

/-- C7: when the first own piece at the origin is a pawn, the destination
is the farthest rank for the mover and is not occupied by the mover's own
side, applying the move through makeMove with its default promotion
argument "q" leaves a queen on the destination square. -/
theorem makeMove_default_promotes_queen (s : Bool) (bd : Board)
    (fro tgt : Pos) (fl : Flags)
    (hp : getType s bd fro = some Kind.p) (hrank : tgt.2 = up s)
    (hocc : isOccupied s bd tgt = false) :
    getType s (makeMove s bd fro tgt fl Kind.q).2.1 tgt = some Kind.q := by
  have hgt : getType s (capt s bd tgt) fro = some Kind.p := by
    rw [getType_capt_same]; exact hp
  have hstep : (makeMove s bd fro tgt fl Kind.q).2.1 =
      move s bd fro tgt Kind.q := rfl
  rw [hstep, move]
  rw [show (3 : Nat) = 2 + 1 from rfl, moveF_succ_pawn hgt]
  have hmain : getType s (pawnBd4 s bd fro tgt Kind.q) tgt = some Kind.q := by
    obtain ⟨l1, l2, hdec, hl1⟩ := getType_decomp hp
    have hnot : ∀ pc ∈ bside bd s, pc.pos ≠ tgt :=
      isOccupied_false_iff.mp hocc
    have hrel : bside (relocStep s (capt s bd tgt) fro tgt) s =
        l1 ++ ⟨tgt.1, tgt.2, Kind.p⟩ :: l2 := by
      rw [relocStep, bside_bset_same, bside_capt_same, hdec,
        reloc_append l2 hl1]
    have hl1t : ∀ pc ∈ l1, pc.pos ≠ tgt := by
      intro pc hm
      exact hnot pc (by rw [hdec]; exact List.mem_append_left _ hm)
    have hl2t : ∀ pc ∈ l2, pc.pos ≠ tgt := by
      intro pc hm
      refine hnot pc ?_
      rw [hdec]
      exact List.mem_append_right _ (List.mem_cons_of_mem _ hm)
    have hrem : removeFirstP (fun pc => pc == ⟨tgt.1, tgt.2, Kind.p⟩)
        (l1 ++ ⟨tgt.1, tgt.2, Kind.p⟩ :: l2) = l1 ++ l2 := by
      refine removeFirstP_append_first (by simp) l2 ?_
      intro a ha
      rw [beq_eq_false_iff_ne]
      intro hcon
      exact hl1t a ha (by rw [hcon, Piece.pos])
    rw [pawnBd4, if_pos hrank, promoStep, getType, bside_bset_same, hrel,
      hrem, List.find?_append]
    have hno : (l1 ++ l2).find? (fun pc => pc.pos == tgt) = none := by
      rw [List.find?_eq_none]
      intro a ha
      rcases List.mem_append.mp ha with hm | hm
      · simpa using hl1t a hm
      · simpa using hl2t a hm
    rw [hno, Option.none_or]
    have hqpos : (Piece.mk tgt.1 (up s) Kind.q).pos = tgt := by
      rw [Piece.pos, ← hrank]
    simp [List.find?, hqpos]
  split
  · rw [getType_enpStep_same]; exact hmain
  · exact hmain

/-- Witness: a white pawn on (3, 2) stepping to the farthest rank (3, 1)
through makeMove with the default promotion becomes a queen there. -/
theorem makeMove_default_promotes_queen_witness :
    getType false (makeMove false
      ([⟨3, 2, Kind.p⟩, ⟨5, 8, Kind.k⟩], [⟨5, 5, Kind.k⟩])
      (3, 2) (3, 1) ((true, true, true, true), none) Kind.q).2.1 (3, 1) =
      some Kind.q :=
  makeMove_default_promotes_queen false
    ([⟨3, 2, Kind.p⟩, ⟨5, 8, Kind.k⟩], [⟨5, 5, Kind.k⟩])
    (3, 2) (3, 1) ((true, true, true, true), none)
    (by decide) (by decide) (by decide)

/-! ## C4: occupancy and king-count invariants of validated play.
Counting infrastructure for pieces per square and kings per side. -/

/-- Number of pieces of a list on a given square. -/
def countAt (l : List Piece) (ps : Pos) : Nat :=
  l.countP (fun pc => pc.pos == ps)

/-- Number of kings in a list. -/
def kings (l : List Piece) : Nat :=
  l.countP (fun pc => pc.t == Kind.k)

/-- At most one piece of either side on any square. -/
def distinctPos (bd : Board) : Prop :=
  ∀ ps : Pos, countAt (bd.1 ++ bd.2) ps ≤ 1

theorem countAt_nil (ps : Pos) : countAt [] ps = 0 := rfl

theorem kings_nil : kings [] = 0 := rfl

theorem countAt_append (l1 l2 : List Piece) (ps : Pos) :
    countAt (l1 ++ l2) ps = countAt l1 ps + countAt l2 ps :=
  List.countP_append _ _ _

theorem kings_append (l1 l2 : List Piece) :
    kings (l1 ++ l2) = kings l1 + kings l2 :=
  List.countP_append _ _ _

theorem countAt_cons (pc : Piece) (l : List Piece) (ps : Pos) :
    countAt (pc :: l) ps =
      countAt l ps + (if pc.pos = ps then 1 else 0) := by
  rw [countAt, List.countP_cons, countAt]
  simp only [beq_iff_eq]

theorem kings_cons (pc : Piece) (l : List Piece) :
    kings (pc :: l) = kings l + (if pc.t = Kind.k then 1 else 0) := by
  rw [kings, List.countP_cons, kings]
  simp only [beq_iff_eq]

theorem countAt_le_one_of_pairwise :
    ∀ {l : List Piece}, l.Pairwise (fun a bv => a.pos ≠ bv.pos) →
      ∀ ps, countAt l ps ≤ 1
  | [], _, ps => by simp [countAt]
  | pc :: l, h, ps => by
      obtain ⟨hhead, htail⟩ := List.pairwise_cons.mp h
      rw [countAt_cons]
      by_cases hps : pc.pos = ps
      · have hzero : countAt l ps = 0 := by
          rw [countAt, List.countP_eq_zero]
          intro a ha
          simp only [beq_iff_eq]
          intro hcon
          exact hhead a ha (by rw [hps, hcon])
        rw [hzero, if_pos hps]
      · rw [if_neg hps]
        have := countAt_le_one_of_pairwise htail ps
        omega

theorem distinctPos_of_nodup {bd : Board}
    (h : ((bd.1 ++ bd.2).map Piece.pos).Nodup) : distinctPos bd := by
  intro ps
  refine countAt_le_one_of_pairwise ?_ ps
  rw [List.Nodup, List.pairwise_map] at h
  exact h

/-- Side-relative formulation of distinctPos. -/
theorem distinctPos_elim {bd : Board} (h : distinctPos bd) (s : Bool)
    (ps : Pos) :
    countAt (bside bd s) ps + countAt (bside bd (!s)) ps ≤ 1 := by
  have := h ps
  rw [countAt_append] at this
  cases s <;> · simp only [bside, cond_true, cond_false, Bool.not_true,
    Bool.not_false] at *; omega

theorem distinctPos_mk {bd : Board} (s : Bool)
    (h : ∀ ps, countAt (bside bd s) ps + countAt (bside bd (!s)) ps ≤ 1) :
    distinctPos bd := by
  intro ps
  have := h ps
  rw [countAt_append]
  cases s <;> · simp only [bside, cond_true, cond_false, Bool.not_true,
    Bool.not_false] at *; omega

theorem countP_removeFirstP_self (pr : Piece → Bool) :
    ∀ l : List Piece,
      (removeFirstP pr l).countP pr = l.countP pr - 1
  | [] => by simp [removeFirstP]
  | pc :: l => by
      rw [removeFirstP]
      split
      · rw [List.countP_cons]
        simp_all
      · rw [List.countP_cons, List.countP_cons, countP_removeFirstP_self pr l]
        have hf : pr pc = false := by simp_all
        rw [hf]
        have : l.countP pr - 1 + 0 = l.countP pr + 0 - 1 := by omega
        simp only [Bool.false_eq_true, if_false, this]

theorem countP_removeFirstP_disj {pr rr : Piece → Bool}
    (hd : ∀ a, pr a = true → rr a = false) :
    ∀ l : List Piece,
      (removeFirstP pr l).countP rr = l.countP rr
  | [] => rfl
  | pc :: l => by
      rw [removeFirstP]
      split
      · rename_i hpc
        rw [List.countP_cons, hd pc hpc]
        simp
      · rw [List.countP_cons, List.countP_cons,
          countP_removeFirstP_disj hd l]

theorem countAt_removeFirstP_other {tgt ps : Pos} (hne : ps ≠ tgt)
    (l : List Piece) :
    countAt (removeFirstP (fun pc => pc.pos == tgt) l) ps =
      countAt l ps := by
  refine countP_removeFirstP_disj ?_ l
  intro a ha
  rw [beq_eq_false_iff_ne]
  have ha' : a.pos = tgt := by simpa using ha
  rw [ha']
  exact fun hcon => hne hcon.symm

theorem countAt_removeFirstP_tgt (tgt : Pos) (l : List Piece) :
    countAt (removeFirstP (fun pc => pc.pos == tgt) l) tgt =
      countAt l tgt - 1 :=
  countP_removeFirstP_self _ l

theorem kings_removeFirstP_of_not_king {pr : Piece → Bool}
    {l : List Piece} (h : ∀ a ∈ l, pr a = true → a.t ≠ Kind.k) :
    kings (removeFirstP pr l) = kings l := by
  induction l with
  | nil => rfl
  | cons pc l ih =>
      rw [removeFirstP]
      split
      · rename_i hpc
        rw [kings_cons]
        have := h pc (List.mem_cons_self pc l) hpc
        simp [this]
      · rw [kings_cons, kings_cons,
          ih (fun a ha => h a (List.mem_cons_of_mem pc ha))]

theorem countAt_removeFirstP_le (pr : Piece → Bool) (l : List Piece)
    (ps : Pos) :
    countAt (removeFirstP pr l) ps ≤ countAt l ps :=
  List.Sublist.countP_le _ (removeFirstP_sublist pr l)

theorem kings_reloc (fro tgt : Pos) :
    ∀ l : List Piece, kings (reloc l fro tgt) = kings l
  | [] => rfl
  | pc :: l => by
      rw [reloc]
      split
      · rw [kings_cons, kings_cons]
      · rw [kings_cons, kings_cons, kings_reloc fro tgt l]

theorem reloc_mem_of_pos_ne {fro tgt : Pos} {pc : Piece} :
    ∀ {l : List Piece}, pc ∈ l → pc.pos ≠ fro → pc ∈ reloc l fro tgt
  | [], h, _ => absurd h (List.not_mem_nil pc)
  | c :: l, h, hne => by
      rw [reloc]
      split
      · rcases List.mem_cons.mp h with rfl | hm
        · rename_i hc; exact absurd hc hne
        · exact List.mem_cons_of_mem _ hm
      · rcases List.mem_cons.mp h with rfl | hm
        · exact List.mem_cons_self pc _
        · exact List.mem_cons_of_mem c (reloc_mem_of_pos_ne hm hne)

theorem bset_bside_self (bd : Board) (s : Bool) :
    bset bd s (bside bd s) = bd := by cases s <;> rfl

theorem capt_eq_self {s : Bool} {bd : Board} {tgt : Pos}
    (h : ∀ pc ∈ bside bd (!s), pc.pos ≠ tgt) :
    capt s bd tgt = bd := by
  rw [capt, removeFirstP_eq_self, bset_bside_self]
  intro a ha
  simpa using h a ha

/-! ## Occupancy congruence: raw generation and check detection only
depend on piece positions (and, for the king search, on which entries are
kings), not on other kinds.  Used to transfer moveTest, which simulates
with the default promotion, to the actually applied promotion. -/

/-- Boards with identical position lists on both sides. -/
def posEq (bd bd' : Board) : Prop :=
  bd.1.map Piece.pos = bd'.1.map Piece.pos ∧
    bd.2.map Piece.pos = bd'.2.map Piece.pos

theorem isOccupied_eq_any (s2 : Bool) (bd : Board) (ps : Pos) :
    isOccupied s2 bd ps = (bside bd s2).any (fun pc => pc.pos == ps) := by
  rw [isOccupied, getType, Option.isSome_map', Bool.eq_iff_iff,
    Option.isSome_iff_exists, List.any_eq_true]
  constructor
  · rintro ⟨pc, hpc⟩
    have hp1 := @List.find?_some Piece (fun qc => qc.pos == ps) pc
      (bside bd s2) hpc
    exact ⟨pc, List.mem_of_find?_eq_some hpc, hp1⟩
  · rintro ⟨pc, hm, hp⟩
    exact Option.isSome_iff_exists.mp (List.find?_isSome.mpr ⟨pc, hm, hp⟩)

theorem any_pos_congr : ∀ {l l' : List Piece},
    l.map Piece.pos = l'.map Piece.pos → ∀ ps : Pos,
      l.any (fun pc => pc.pos == ps) = l'.any (fun pc => pc.pos == ps)
  | [], [], _, _ => rfl
  | [], _ :: _, h, _ => by simp at h
  | _ :: _, [], h, _ => by simp at h
  | a :: l, bv :: l', h, ps => by
      simp only [List.map_cons, List.cons.injEq] at h
      rw [List.any_cons, List.any_cons, h.1, any_pos_congr h.2 ps]

theorem isOccupied_congr {bd bd' : Board} (h : posEq bd bd') :
    ∀ (s2 : Bool) (ps : Pos), isOccupied s2 bd ps = isOccupied s2 bd' ps := by
  intro s2 ps
  rw [isOccupied_eq_any, isOccupied_eq_any]
  cases s2
  · exact any_pos_congr h.1 ps
  · exact any_pos_congr h.2 ps

theorem isEmpty_congr {bd bd' : Board} (h : posEq bd bd') :
    ∀ l : List Pos, isEmpty bd l = isEmpty bd' l := by
  have hc := isOccupied_congr h
  intro l
  simp only [isEmpty, hc]

theorem ray_congr {bd bd' : Board} (h : posEq bd bd') :
    ∀ (x y dx dy : Int) (n : Nat),
      ray bd x y dx dy n = ray bd' x y dx dy n
  | _, _, _, _, 0 => rfl
  | x, y, dx, dy, n + 1 => by
      rw [ray, ray, isEmpty_congr h]
      split
      · rw [ray_congr h (x + dx) (y + dy) dx dy n]
      · rfl

theorem pawnMoves_congr {bd bd' : Board} (h : posEq bd bd') (s2 : Bool)
    (x y : Int) (enP : Option Pos) :
    pawnMoves s2 bd x y enP = pawnMoves s2 bd' x y enP := by
  have hc := isOccupied_congr h
  have he := isEmpty_congr h
  simp only [pawnMoves, hc, he]

theorem rawMovesNF_congr {bd bd' : Board} (h : posEq bd bd') :
    ∀ (s2 : Bool) (pc : Piece), rawMovesNF s2 bd pc = rawMovesNF s2 bd' pc := by
  intro s2 pc
  cases pc with
  | mk x y t =>
      cases t <;>
        simp only [rawMovesNF, pawnMoves_congr h, bishopMoves, rookMoves,
          ray_congr h, knightMoves, kingAdj]

/-- Applying a move with two different (non-king) promotion kinds yields
either identical boards, or boards that differ only in the kind of the
appended promoted piece. -/
theorem move_promo_cases {s : Bool} {bd : Board} {fro tgt : Pos}
    {pr : Kind} :
    move s bd fro tgt pr = move s bd fro tgt Kind.p ∨
      ∃ lown, bside (move s bd fro tgt pr) s = lown ++ [⟨tgt.1, up s, pr⟩] ∧
        bside (move s bd fro tgt Kind.p) s = lown ++ [⟨tgt.1, up s, Kind.p⟩] ∧
        bside (move s bd fro tgt pr) (!s) =
          bside (move s bd fro tgt Kind.p) (!s) := by
  rw [move, move, show (3 : Nat) = 2 + 1 from rfl]
  cases hgt : getType s (capt s bd tgt) fro with
  | none => rw [moveF_succ_none hgt, moveF_succ_none hgt]; left; rfl
  | some t0 =>
      by_cases hk : t0 = Kind.k
      · subst hk
        by_cases h2 : fro.1 - tgt.1 = 2
        · rw [moveF_succ_king_aside hgt h2, moveF_succ_king_aside hgt h2]
          left; rfl
        · by_cases h3 : tgt.1 - fro.1 = 2
          · rw [moveF_succ_king_hside hgt h2 h3,
              moveF_succ_king_hside hgt h2 h3]
            left; rfl
          · rw [moveF_succ_king_still hgt h2 h3,
              moveF_succ_king_still hgt h2 h3]
            left; rfl
      · by_cases hp : t0 = Kind.p
        · subst hp
          rw [moveF_succ_pawn hgt, moveF_succ_pawn hgt]
          by_cases hup : tgt.2 = up s
          · right
            refine ⟨removeFirstP (fun pc => pc == ⟨tgt.1, tgt.2, Kind.p⟩)
              (bside (relocStep s (capt s bd tgt) fro tgt) s), ?_, ?_, ?_⟩
            · split
              · rw [enpStep, bside_bset_not, pawnBd4, if_pos hup,
                  promoStep, bside_bset_same]
              · rw [pawnBd4, if_pos hup, promoStep, bside_bset_same]
            · split
              · rw [enpStep, bside_bset_not, pawnBd4, if_pos hup,
                  promoStep, bside_bset_same]
              · rw [pawnBd4, if_pos hup, promoStep, bside_bset_same]
            · have hopp : ∀ prv : Kind,
                  bside (pawnBd4 s bd fro tgt prv) (!s) =
                    bside (capt s bd tgt) (!s) := by
                intro prv
                rw [pawnBd4, if_pos hup, promoStep, bside_bset_not',
                  relocStep, bside_bset_not']
              split
              · rw [enpStep, enpStep, bside_bset_same, bside_bset_same,
                  hopp, hopp]
              · rw [hopp, hopp]
          · left
            rw [pawnBd4, pawnBd4, if_neg hup, if_neg hup]
        · rw [moveF_succ_plain hgt hk hp, moveF_succ_plain hgt hk hp]
          left; rfl

/-- moveTest simulates with the default promotion "p"; its verdict
transfers to the actually applied promotion kind, as long as that kind is
not a king (occupancy is identical and the king search sees the same
king). -/
theorem moveTest_implies_safe {s : Bool} {bd : Board} {fro tgt : Pos}
    {pr : Kind} (hpr : pr ≠ Kind.k)
    (hmt : moveTest s bd fro tgt = true) :
    pyBool (isChecked s (move s bd fro tgt pr)) = false := by
  rw [moveTest, Bool.not_eq_true'] at hmt
  rcases @move_promo_cases s bd fro tgt pr with heq | ⟨lown, h1, h2, h3⟩
  · rw [heq]; exact hmt
  · have hb : (pr == Kind.k) = false := beq_eq_false_iff_ne.mpr hpr
    have hfind : (bside (move s bd fro tgt pr) s).find?
        (fun pc => pc.t == Kind.k) =
        (bside (move s bd fro tgt Kind.p) s).find?
          (fun pc => pc.t == Kind.k) := by
      rw [h1, h2, List.find?_append, List.find?_append]
      have e1 : List.find? (fun pc => pc.t == Kind.k)
          [Piece.mk tgt.1 (up s) pr] = none := by
        simp [List.find?, hb]
      have e2 : List.find? (fun pc => pc.t == Kind.k)
          [Piece.mk tgt.1 (up s) Kind.p] = none := rfl
      rw [e1, e2]
    have hpos : posEq (move s bd fro tgt pr) (move s bd fro tgt Kind.p) := by
      have hmap : (bside (move s bd fro tgt pr) s).map Piece.pos =
          (bside (move s bd fro tgt Kind.p) s).map Piece.pos := by
        rw [h1, h2, List.map_append, List.map_append]
        simp [Piece.pos]
      have hmap' : (bside (move s bd fro tgt pr) (!s)).map Piece.pos =
          (bside (move s bd fro tgt Kind.p) (!s)).map Piece.pos := by
        rw [h3]
      cases s
      · exact ⟨hmap, hmap'⟩
      · exact ⟨hmap', hmap⟩
    have hIC : isChecked s (move s bd fro tgt pr) =
        isChecked s (move s bd fro tgt Kind.p) := by
      rw [isChecked, isChecked, hfind, h3]
      cases hf : (bside (move s bd fro tgt Kind.p) s).find?
          (fun pc => pc.t == Kind.k) with
      | none => rfl
      | some kp =>
          simp only [Option.map_some', Option.some_inj]
          have hco := rawMovesNF_congr hpos
          simp only [hco]
    rw [hIC]
    exact hmt

/-! ## Validity elimination and the play invariant -/

theorem countAt_eq_zero_iff {l : List Piece} {ps : Pos} :
    countAt l ps = 0 ↔ ∀ pc ∈ l, pc.pos ≠ ps := by
  rw [countAt, List.countP_eq_zero]
  simp

/-- Unpacking a truthy isValidMove: the destination is on the board and
not occupied by the mover, the first piece at the origin exists, raw-reaches
the destination, and the move passes the self-check test. -/
theorem isValidMove_true_elim {s : Bool} {bd : Board} {fl : Flags}
    {fro tgt : Pos} (h : pyBool (isValidMove s bd fl fro tgt) = true) :
    (0 < tgt.1 ∧ tgt.1 < 9 ∧ 0 < tgt.2 ∧ tgt.2 < 9) ∧
      isOccupied s bd tgt = false ∧
      ∃ t0, getType s bd fro = some t0 ∧
        tgt ∈ rawMoves s bd ⟨fro.1, fro.2, t0⟩ (some fl.1) fl.2 ∧
        moveTest s bd fro tgt = true := by
  rw [isValidMove] at h
  split at h
  · rename_i hc
    obtain ⟨hb1, hb2, hb3, hb4, hocc⟩ := hc
    cases hgt : getType s bd fro with
    | none => rw [hgt] at h; simp [pyBool] at h
    | some t0 =>
        rw [hgt] at h
        dsimp only at h
        split at h
        · rename_i hraw
          refine ⟨⟨hb1, hb2, hb3, hb4⟩, by simpa using hocc, t0, rfl,
            hraw, ?_⟩
          simpa [pyBool] using h
        · simp [pyBool] at h
  · cases h

theorem getType_some_mem {s : Bool} {bd : Board} {ps : Pos} {t0 : Kind}
    (h : getType s bd ps = some t0) :
    (⟨ps.1, ps.2, t0⟩ : Piece) ∈ bside bd s := by
  obtain ⟨l1, l2, hdec, -⟩ := getType_decomp h
  rw [hdec]
  exact List.mem_append_right _ (List.mem_cons_self _ _)

theorem king_eq_of_unique {l : List Piece} (hc : kings l = 1) {a bv : Piece}
    (ha : a ∈ l) (hka : a.t = Kind.k) (hb : bv ∈ l) (hkb : bv.t = Kind.k) :
    a = bv :=
  countP_pieces_unique hc ha (by simp [hka]) hb (by simp [hkb])

/-- Castling rights are honest: a set boolean means the corresponding
king and rook records are present (recomputed positionally each
transition). -/
def flagsOK (bd : Board) (cs : Castle) : Prop :=
  (cs.1 = true → Piece.mk 5 8 Kind.k ∈ bd.1 ∧ Piece.mk 1 8 Kind.r ∈ bd.1) ∧
  (cs.2.1 = true →
    Piece.mk 5 8 Kind.k ∈ bd.1 ∧ Piece.mk 8 8 Kind.r ∈ bd.1) ∧
  (cs.2.2.1 = true →
    Piece.mk 5 1 Kind.k ∈ bd.2 ∧ Piece.mk 1 1 Kind.r ∈ bd.2) ∧
  (cs.2.2.2 = true →
    Piece.mk 5 1 Kind.k ∈ bd.2 ∧ Piece.mk 8 1 Kind.r ∈ bd.2)

theorem flagsOK_updateFlags (s : Bool) (bd : Board) (fro tgt : Pos)
    (fl : Flags) : flagsOK bd (updateFlags s bd fro tgt fl).1 := by
  refine ⟨?_, ?_, ?_, ?_⟩ <;>
    · intro h
      simp only [updateFlags, Bool.and_eq_true, decide_eq_true_eq] at h
      exact ⟨h.2.1, h.2.2⟩

/-- The play invariant: one piece per square, one king per side, honest
castling rights, and the side that just moved is not in check. -/
def Good (st : Bool × Board × Flags) : Prop :=
  distinctPos st.2.1 ∧ kings st.2.1.1 = 1 ∧ kings st.2.1.2 = 1 ∧
    flagsOK st.2.1 st.2.2.1 ∧ pyBool (isChecked (!st.1) st.2.1) = false

/-- Every move of the list passes the legality filter in the position it
is applied to. -/
def legalSeq : (Bool × Board × Flags) → List Mv → Bool
  | _, [] => true
  | st, m :: ms =>
      pyBool (isValidMove st.1 st.2.1 st.2.2 m.1 m.2.1) &&
        legalSeq (stepGame st m) ms

theorem kingAdj_small {x y : Int} {tgt : Pos} (h : tgt ∈ kingAdj x y) :
    tgt.1 - x ≠ 2 ∧ x - tgt.1 ≠ 2 := by
  simp only [kingAdj, List.mem_cons, List.not_mem_nil, or_false] at h
  rcases h with rfl | rfl | rfl | rfl | rfl | rfl | rfl | rfl <;>
    · dsimp only
      omega

/-- Membership in the castling block forces one of the four hard-coded
destinations together with that block's guards. -/
theorem mem_block_elim {c : Bool} {a tgt : Pos}
    (h : tgt ∈ (if c = true then [a] else ([] : List Pos))) :
    c = true ∧ tgt = a := by
  cases hc : c
  · rw [hc] at h; simp at h
  · rw [hc] at h
    simp at h
    exact ⟨rfl, h⟩

theorem castlePart_elim {s : Bool} {bd : Board} {cs : Castle} {tgt : Pos}
    (h : tgt ∈ castlePart s bd (some cs)) :
    pyBool (isChecked s bd) = false ∧
      ((tgt = ((3 : Int), (8 : Int)) ∧ cs.1 = true ∧
        isEmpty bd [(2, 8), (3, 8), (4, 8)] = true ∧
        moveTest false bd (5, 8) (4, 8) = true) ∨
       (tgt = (7, 8) ∧ cs.2.1 = true ∧
        isEmpty bd [(6, 8), (7, 8)] = true ∧
        moveTest false bd (5, 8) (6, 8) = true) ∨
       (tgt = (3, 1) ∧ cs.2.2.1 = true ∧
        isEmpty bd [(2, 1), (3, 1), (4, 1)] = true ∧
        moveTest true bd (5, 1) (4, 1) = true) ∨
       (tgt = (7, 1) ∧ cs.2.2.2 = true ∧
        isEmpty bd [(6, 1), (7, 1)] = true ∧
        moveTest true bd (5, 1) (6, 1) = true)) := by
  rw [castlePart] at h
  cases hch : pyBool (isChecked s bd) with
  | true =>
      rw [hch] at h
      rw [if_neg (show ¬((!true : Bool) = true) by decide)] at h
      simp at h
  | false =>
      rw [hch] at h
      rw [if_pos (show (!false : Bool) = true by decide)] at h
      refine ⟨rfl, ?_⟩
      rcases List.mem_append.mp h with h | h
      rotate_left
      · obtain ⟨hc, he⟩ := mem_block_elim h
        rw [Bool.and_eq_true, Bool.and_eq_true] at hc
        exact Or.inr (Or.inr (Or.inr ⟨he, hc.1.1, hc.1.2, hc.2⟩))
      rcases List.mem_append.mp h with h | h
      rotate_left
      · obtain ⟨hc, he⟩ := mem_block_elim h
        rw [Bool.and_eq_true, Bool.and_eq_true] at hc
        exact Or.inr (Or.inr (Or.inl ⟨he, hc.1.1, hc.1.2, hc.2⟩))
      rcases List.mem_append.mp h with h | h
      · obtain ⟨hc, he⟩ := mem_block_elim h
        rw [Bool.and_eq_true, Bool.and_eq_true] at hc
        exact Or.inl ⟨he, hc.1.1, hc.1.2, hc.2⟩
      · obtain ⟨hc, he⟩ := mem_block_elim h
        rw [Bool.and_eq_true, Bool.and_eq_true] at hc
        exact Or.inr (Or.inl ⟨he, hc.1.1, hc.1.2, hc.2⟩)

/-- Shape of the recursive rook relocation inside a castling move: when
the relocated piece is not a king (and the move cannot promote or be an
en-passant capture, true of the hard-coded rook squares), the inner move
is a capture step possibly followed by a plain relocation. -/
theorem inner_shape {n : Nat} {s : Bool} {bdi : Board} {fro2 tgt2 : Pos}
    (hr : fro2.2 ≠ 4 + (if s then (1 : Int) else 0))
    (hup : tgt2.2 ≠ up s)
    (hnk : ∀ pc ∈ bside bdi s, pc.pos = fro2 → pc.t ≠ Kind.k) :
    moveF (n + 1) s bdi fro2 tgt2 Kind.p =
        relocStep s (capt s bdi tgt2) fro2 tgt2 ∨
      moveF (n + 1) s bdi fro2 tgt2 Kind.p = capt s bdi tgt2 := by
  cases hgt : getType s (capt s bdi tgt2) fro2 with
  | none => right; exact moveF_succ_none hgt
  | some t1 =>
      have hmem : (⟨fro2.1, fro2.2, t1⟩ : Piece) ∈ bside bdi s := by
        have := getType_some_mem hgt
        rw [bside_capt_same] at this
        exact this
      have ht1k : t1 ≠ Kind.k := hnk _ hmem rfl
      by_cases hp1 : t1 = Kind.p
      · subst hp1
        left
        rw [moveF_succ_pawn hgt]
        have hae : allowEnp s bdi fro2 tgt2 = false := by
          rw [allowEnp]
          have hx : (fro2.2 == 4 + (if s then (1 : Int) else 0)) = false :=
            beq_eq_false_iff_ne.mpr hr
          rw [hx, Bool.false_and, Bool.false_and]
        rw [hae]
        simp only [Bool.false_eq_true, if_false]
        rw [pawnBd4, if_neg hup]
      · left
        exact moveF_succ_plain hgt ht1k hp1

/-! ## Attacks on occupied squares do not need flags -/

theorem Piece.t_mk (a bv : Int) (c : Kind) : (⟨a, bv, c⟩ : Piece).t = c :=
  rfl

theorem Piece.pos_mk (a bv : Int) (c : Kind) :
    (⟨a, bv, c⟩ : Piece).pos = (a, bv) := rfl

theorem isOccupied_of_mem {s2 : Bool} {bd : Board} {pc : Piece} {ps : Pos}
    (hm : pc ∈ bside bd s2) (hp : pc.pos = ps) :
    isOccupied s2 bd ps = true := by
  rw [isOccupied_eq_any, List.any_eq_true]
  exact ⟨pc, hm, by simp [hp]⟩

theorem isEmpty_not_occupied {bd : Board} {psl : List Pos} {ps : Pos}
    (h : isEmpty bd psl = true) (hm : ps ∈ psl) (s2 : Bool) :
    isOccupied s2 bd ps = false := by
  obtain ⟨h1, h2⟩ := isEmpty_mem h hm
  rw [isOccupied_false_iff]
  cases s2
  · exact h1
  · exact h2

theorem countAt_pos_of_mem {l : List Piece} {pc : Piece} {ps : Pos}
    (hm : pc ∈ l) (hp : pc.pos = ps) : 1 ≤ countAt l ps := by
  rw [countAt]
  have h1 : 0 < List.countP (fun q : Piece => q.pos == ps) l :=
    List.countP_pos_iff.mpr ⟨pc, hm, by simp [hp]⟩
  omega

theorem pawnMoves_false_eq (bd : Board) (x y : Int) (enP : Option Pos) :
    pawnMoves false bd x y enP =
      (if y = 7 && isEmpty bd [(x, 6), (x, 5)] then [(x, 5)] else []) ++
      (if isEmpty bd [(x, y - 1)] then [(x, y - 1)] else []) ++
      ([(x + 1, y - 1), (x - 1, y - 1)]).filter
        (fun dg => isOccupied true bd dg || enP == some dg) := rfl

theorem pawnMoves_true_eq (bd : Board) (x y : Int) (enP : Option Pos) :
    pawnMoves true bd x y enP =
      (if y = 2 && isEmpty bd [(x, 3), (x, 4)] then [(x, 4)] else []) ++
      (if isEmpty bd [(x, y + 1)] then [(x, y + 1)] else []) ++
      ([(x + 1, y + 1), (x - 1, y + 1)]).filter
        (fun dg => isOccupied false bd dg || enP == some dg) := rfl

theorem pawn_raw_to_NF {s : Bool} {bd : Board} {x y : Int} {e : Option Pos}
    {tgt : Pos} (hocc2 : isOccupied (!s) bd tgt = true)
    (h : tgt ∈ pawnMoves s bd x y e) : tgt ∈ pawnMoves s bd x y none := by
  cases s
  · rw [pawnMoves_false_eq] at h ⊢
    rcases List.mem_append.mp h with h | h
    · exact List.mem_append_left _ h
    · refine List.mem_append_right _ ?_
      obtain ⟨hd2, -⟩ := List.mem_filter.mp h
      refine List.mem_filter.mpr ⟨hd2, ?_⟩
      have : isOccupied true bd tgt = true := hocc2
      rw [this, Bool.true_or]
  · rw [pawnMoves_true_eq] at h ⊢
    rcases List.mem_append.mp h with h | h
    · exact List.mem_append_left _ h
    · refine List.mem_append_right _ ?_
      obtain ⟨hd2, -⟩ := List.mem_filter.mp h
      refine List.mem_filter.mpr ⟨hd2, ?_⟩
      have : isOccupied false bd tgt = true := hocc2
      rw [this, Bool.true_or]

/-- A raw destination that is occupied by the opponent is also produced
with flags absent: the en-passant diagonal is subsumed by the occupancy
test and a castling destination must be empty, so no castling candidate applies. -/
theorem raw_to_NF {s : Bool} {bd : Board} {pc : Piece}
    {castle : Option Castle} {enP : Option Pos} {tgt : Pos}
    (hocc2 : isOccupied (!s) bd tgt = true)
    (h : tgt ∈ rawMoves s bd pc castle enP) :
    tgt ∈ rawMovesNF s bd pc := by
  cases pc with
  | mk x y t =>
      cases t with
      | p => exact pawn_raw_to_NF hocc2 h
      | n => exact h
      | b => exact h
      | r => exact h
      | q => exact h
      | other c => exact h
      | k =>
          rw [rawMoves] at h
          rw [rawMovesNF]
          rcases List.mem_append.mp h with hcp | hadj
          · exfalso
            rcases castle with _ | cs
            · simp [castlePart] at hcp
            · obtain ⟨-, hblocks⟩ := castlePart_elim hcp
              rcases hblocks with ⟨rfl, -, hg, -⟩ | ⟨rfl, -, hg, -⟩ |
                ⟨rfl, -, hg, -⟩ | ⟨rfl, -, hg, -⟩ <;>
                · rw [isEmpty_not_occupied hg (by decide) (!s)] at hocc2
                  cases hocc2
          · exact hadj

/-- Validated moves never capture a king: the side that just moved is not
in check, so its king's square is not raw-reachable by the mover. -/
theorem no_king_capture {s : Bool} {bd : Board} {fl : Flags}
    {fro tgt : Pos} {t0 : Kind}
    (hko : kings (bside bd (!s)) = 1)
    (hnc : pyBool (isChecked (!s) bd) = false)
    (hex : getType s bd fro = some t0)
    (hraw : tgt ∈ rawMoves s bd ⟨fro.1, fro.2, t0⟩ (some fl.1) fl.2) :
    ∀ a ∈ bside bd (!s), a.pos = tgt → a.t ≠ Kind.k := by
  intro a ha hpos hak
  have hfind : (bside bd (!s)).find? (fun pc => pc.t == Kind.k) = some a :=
    find?_eq_of_unique hko ha (by simp [hak])
  have hocc2 : isOccupied (!s) bd tgt = true := isOccupied_of_mem ha hpos
  have hatt : tgt ∈ rawMovesNF s bd ⟨fro.1, fro.2, t0⟩ := raw_to_NF hocc2 hraw
  have hq0 : (⟨fro.1, fro.2, t0⟩ : Piece) ∈ bside bd s := getType_some_mem hex
  have : isChecked (!s) bd = some true := by
    rw [isChecked, hfind, Option.map_some', Option.some_inj,
      List.any_eq_true]
    refine ⟨⟨fro.1, fro.2, t0⟩, ?_, ?_⟩
    · rw [Bool.not_not]; exact hq0
    · rw [Bool.not_not, hpos]
      simpa using hatt
  rw [this] at hnc
  cases hnc

/-! ## Invariant bookkeeping for the non-castling move shapes -/

theorem assemble_distinct {s : Bool} {bd nb : Board}
    {ownF oppF : List Piece} {tgt : Pos}
    (hbOwn : bside nb s = ownF) (hbOpp : bside nb (!s) = oppF)
    (hown_tgt : countAt ownF tgt = 1)
    (hown_le : ∀ ps, ps ≠ tgt → countAt ownF ps ≤ countAt (bside bd s) ps)
    (hopp_tgt : countAt oppF tgt = 0)
    (hopp_le : ∀ ps, countAt oppF ps ≤ countAt (bside bd (!s)) ps)
    (hd : distinctPos bd) : distinctPos nb := by
  refine distinctPos_mk s ?_
  intro ps
  rw [hbOwn, hbOpp]
  by_cases hps : ps = tgt
  · subst hps
    rw [hown_tgt, hopp_tgt]
  · have h1 := hown_le ps hps
    have h2 := hopp_le ps
    have h3 := distinctPos_elim hd s ps
    omega

theorem opp_after_capture_le (s : Bool) (bd : Board) (tgt : Pos) :
    ∀ ps, countAt (removeFirstP (fun pc => pc.pos == tgt)
      (bside bd (!s))) ps ≤ countAt (bside bd (!s)) ps :=
  fun ps => countAt_removeFirstP_le _ _ ps

theorem opp_after_capture_tgt {s : Bool} {bd : Board} {tgt : Pos}
    (hd : distinctPos bd) :
    countAt (removeFirstP (fun pc => pc.pos == tgt) (bside bd (!s))) tgt
      = 0 := by
  rw [countAt_removeFirstP_tgt]
  have := distinctPos_elim hd (!s) tgt
  omega

/-- Invariants after a plain relocation shape (every piece kind except a
castling king or a promoting pawn). -/
theorem relocShape_invariants {s : Bool} {bd : Board} {fro tgt : Pos}
    {t0 : Kind}
    (hd : distinctPos bd) (hks : kings (bside bd s) = 1)
    (hko : kings (bside bd (!s)) = 1)
    (hnk : ∀ a ∈ bside bd (!s), a.pos = tgt → a.t ≠ Kind.k)
    (hocc : isOccupied s bd tgt = false)
    (hex : getType s bd fro = some t0) :
    distinctPos (relocStep s (capt s bd tgt) fro tgt) ∧
      kings (bside (relocStep s (capt s bd tgt) fro tgt) s) = 1 ∧
      kings (bside (relocStep s (capt s bd tgt) fro tgt) (!s)) = 1 := by
  obtain ⟨l1, l2, hdec, hl1⟩ := getType_decomp hex
  have hownS : bside (relocStep s (capt s bd tgt) fro tgt) s =
      l1 ++ (⟨tgt.1, tgt.2, t0⟩ : Piece) :: l2 := by
    rw [relocStep, bside_bset_same, bside_capt_same, hdec, reloc_append l2 hl1]
  have hoppS : bside (relocStep s (capt s bd tgt) fro tgt) (!s) =
      removeFirstP (fun pc => pc.pos == tgt) (bside bd (!s)) := by
    rw [relocStep, bside_bset_not', capt, bside_bset_same]
  have hocc0 : countAt (bside bd s) tgt = 0 :=
    countAt_eq_zero_iff.mpr (isOccupied_false_iff.mp hocc)
  have hl12 : countAt l1 tgt = 0 ∧ countAt l2 tgt = 0 := by
    rw [hdec, countAt_append, countAt_cons] at hocc0
    constructor <;> omega
  have hkopp : kings (removeFirstP (fun pc => pc.pos == tgt)
      (bside bd (!s))) = 1 := by
    rw [kings_removeFirstP_of_not_king, hko]
    intro a ha hpa
    exact hnk a ha (by simpa using hpa)
  refine ⟨?_, ?_, ?_⟩
  · refine assemble_distinct hownS hoppS ?_ ?_ (opp_after_capture_tgt hd)
      (opp_after_capture_le s bd tgt) hd
    · rw [countAt_append, countAt_cons, Piece.pos_mk, Prod.mk.eta,
        if_pos rfl]
      omega
    · intro ps hps
      have hexp : countAt (bside bd s) ps =
          countAt l1 ps + (countAt l2 ps +
            (if (⟨fro.1, fro.2, t0⟩ : Piece).pos = ps then 1 else 0)) := by
        rw [hdec, countAt_append, countAt_cons]
      rw [countAt_append, countAt_cons, Piece.pos_mk, Prod.mk.eta,
        if_neg (fun hcon => hps hcon.symm), hexp]
      split_ifs <;> omega
  · rw [hownS, kings_append, kings_cons, Piece.t_mk]
    rw [hdec, kings_append, kings_cons, Piece.t_mk] at hks
    exact hks
  · rw [hoppS]
    exact hkopp

theorem relocShape_counts {s : Bool} {bd : Board} {fro tgt : Pos}
    {t0 : Kind} (hocc : isOccupied s bd tgt = false)
    (hex : getType s bd fro = some t0) :
    countAt (bside (relocStep s (capt s bd tgt) fro tgt) s) tgt = 1 ∧
      (∀ ps, ps ≠ tgt →
        countAt (bside (relocStep s (capt s bd tgt) fro tgt) s) ps ≤
          countAt (bside bd s) ps) ∧
      kings (bside (relocStep s (capt s bd tgt) fro tgt) s) =
        kings (bside bd s) ∧
      bside (relocStep s (capt s bd tgt) fro tgt) (!s) =
        removeFirstP (fun pc => pc.pos == tgt) (bside bd (!s)) := by
  obtain ⟨l1, l2, hdec, hl1⟩ := getType_decomp hex
  have hownS : bside (relocStep s (capt s bd tgt) fro tgt) s =
      l1 ++ (⟨tgt.1, tgt.2, t0⟩ : Piece) :: l2 := by
    rw [relocStep, bside_bset_same, bside_capt_same, hdec, reloc_append l2 hl1]
  have hocc0 : countAt (bside bd s) tgt = 0 :=
    countAt_eq_zero_iff.mpr (isOccupied_false_iff.mp hocc)
  have hl12 : countAt l1 tgt = 0 ∧ countAt l2 tgt = 0 := by
    rw [hdec, countAt_append, countAt_cons] at hocc0
    constructor <;> omega
  refine ⟨?_, ?_, ?_, ?_⟩
  · rw [hownS, countAt_append, countAt_cons, Piece.pos_mk, Prod.mk.eta,
      if_pos rfl]
    omega
  · intro ps hps
    have hexp : countAt (bside bd s) ps =
        countAt l1 ps + (countAt l2 ps +
          (if (⟨fro.1, fro.2, t0⟩ : Piece).pos = ps then 1 else 0)) := by
      rw [hdec, countAt_append, countAt_cons]
    rw [hownS, countAt_append, countAt_cons, Piece.pos_mk, Prod.mk.eta,
      if_neg (fun hcon => hps hcon.symm), hexp]
    split_ifs <;> omega
  · rw [hownS, kings_append, kings_cons, Piece.t_mk, hdec, kings_append,
      kings_cons, Piece.t_mk]
  · rw [relocStep, bside_bset_not', capt, bside_bset_same]

theorem promoShape_counts {s : Bool} {bd : Board} {fro tgt : Pos}
    {pr : Kind} (hocc : isOccupied s bd tgt = false)
    (hex : getType s bd fro = some Kind.p) (hup : tgt.2 = up s)
    (hpr : pr ≠ Kind.k) :
    countAt (bside (promoStep s (relocStep s (capt s bd tgt) fro tgt)
      tgt pr) s) tgt = 1 ∧
      (∀ ps, ps ≠ tgt →
        countAt (bside (promoStep s (relocStep s (capt s bd tgt) fro tgt)
          tgt pr) s) ps ≤ countAt (bside bd s) ps) ∧
      kings (bside (promoStep s (relocStep s (capt s bd tgt) fro tgt)
        tgt pr) s) = kings (bside bd s) ∧
      bside (promoStep s (relocStep s (capt s bd tgt) fro tgt) tgt pr)
        (!s) = removeFirstP (fun pc => pc.pos == tgt) (bside bd (!s)) := by
  obtain ⟨l1, l2, hdec, hl1⟩ := getType_decomp hex
  have hownS : bside (relocStep s (capt s bd tgt) fro tgt) s =
      l1 ++ (⟨tgt.1, tgt.2, Kind.p⟩ : Piece) :: l2 := by
    rw [relocStep, bside_bset_same, bside_capt_same, hdec, reloc_append l2 hl1]
  have hocc0 : countAt (bside bd s) tgt = 0 :=
    countAt_eq_zero_iff.mpr (isOccupied_false_iff.mp hocc)
  have hl12 : countAt l1 tgt = 0 ∧ countAt l2 tgt = 0 := by
    rw [hdec, countAt_append, countAt_cons] at hocc0
    constructor <;> omega
  have hl1f : ∀ a ∈ l1,
      (a == (⟨tgt.1, tgt.2, Kind.p⟩ : Piece)) = false := by
    intro a ha
    rw [beq_eq_false_iff_ne]
    intro hcon
    have : a.pos = tgt := by rw [hcon, Piece.pos_mk, Prod.mk.eta]
    have hz := countAt_pos_of_mem ha this
    omega
  have hrm : removeFirstP (fun pc => pc == (⟨tgt.1, tgt.2, Kind.p⟩ : Piece))
      (l1 ++ (⟨tgt.1, tgt.2, Kind.p⟩ : Piece) :: l2) = l1 ++ l2 :=
    removeFirstP_append_first (by simp) l2 hl1f
  have hown : bside (promoStep s (relocStep s (capt s bd tgt) fro tgt)
      tgt pr) s = (l1 ++ l2) ++ [⟨tgt.1, up s, pr⟩] := by
    rw [promoStep, bside_bset_same, hownS, hrm]
  have hqp : (⟨tgt.1, up s, pr⟩ : Piece).pos = tgt := by
    rw [Piece.pos_mk, ← hup, Prod.mk.eta]
  refine ⟨?_, ?_, ?_, ?_⟩
  · rw [hown, countAt_append, countAt_append, countAt_cons, countAt_nil,
      hqp, if_pos rfl]
    omega
  · intro ps hps
    have hexp : countAt (bside bd s) ps =
        countAt l1 ps + (countAt l2 ps +
          (if (⟨fro.1, fro.2, Kind.p⟩ : Piece).pos = ps then 1 else 0)) := by
      rw [hdec, countAt_append, countAt_cons]
    rw [hown, countAt_append, countAt_append, countAt_cons, countAt_nil,
      hqp, if_neg (fun hcon => hps hcon.symm), hexp]
    split_ifs <;> omega
  · have hexp : kings (bside bd s) =
        kings l1 + (kings l2 +
          (if (⟨fro.1, fro.2, Kind.p⟩ : Piece).t = Kind.k then 1 else 0)) := by
      rw [hdec, kings_append, kings_cons]
    rw [hown, kings_append, kings_append, kings_cons, kings_nil,
      Piece.t_mk, if_neg hpr, hexp, Piece.t_mk]
    simp
  · rw [promoStep, bside_bset_not', relocStep, bside_bset_not', capt,
      bside_bset_same]

/-- Invariants after a full pawn move shape: optional promotion followed
by the optional geometric en-passant removal. -/
theorem pawnShape_invariants {s : Bool} {bd : Board} {fro tgt : Pos}
    {pr : Kind}
    (hd : distinctPos bd) (hks : kings (bside bd s) = 1)
    (hko : kings (bside bd (!s)) = 1)
    (hnk : ∀ a ∈ bside bd (!s), a.pos = tgt → a.t ≠ Kind.k)
    (hocc : isOccupied s bd tgt = false)
    (hex : getType s bd fro = some Kind.p) (hpr : pr ≠ Kind.k) :
    distinctPos (if allowEnp s bd fro tgt then
        enpStep s (pawnBd4 s bd fro tgt pr) fro tgt
      else pawnBd4 s bd fro tgt pr) ∧
      kings (bside (if allowEnp s bd fro tgt then
        enpStep s (pawnBd4 s bd fro tgt pr) fro tgt
      else pawnBd4 s bd fro tgt pr) s) = 1 ∧
      kings (bside (if allowEnp s bd fro tgt then
        enpStep s (pawnBd4 s bd fro tgt pr) fro tgt
      else pawnBd4 s bd fro tgt pr) (!s)) = 1 := by
  have hB4 : countAt (bside (pawnBd4 s bd fro tgt pr) s) tgt = 1 ∧
      (∀ ps, ps ≠ tgt → countAt (bside (pawnBd4 s bd fro tgt pr) s) ps ≤
        countAt (bside bd s) ps) ∧
      kings (bside (pawnBd4 s bd fro tgt pr) s) = kings (bside bd s) ∧
      bside (pawnBd4 s bd fro tgt pr) (!s) =
        removeFirstP (fun pc => pc.pos == tgt) (bside bd (!s)) := by
    rw [pawnBd4]
    split
    · exact promoShape_counts hocc hex (by assumption) hpr
    · exact relocShape_counts hocc hex
  obtain ⟨hB4tgt, hB4le, hB4k, hB4opp⟩ := hB4
  have hkopp : kings (bside (pawnBd4 s bd fro tgt pr) (!s)) = 1 := by
    rw [hB4opp, kings_removeFirstP_of_not_king, hko]
    intro a ha hpa
    exact hnk a ha (by simpa using hpa)
  have hB4oppTgt : countAt (bside (pawnBd4 s bd fro tgt pr) (!s)) tgt
      = 0 := by
    rw [hB4opp]
    exact opp_after_capture_tgt hd
  have hB4oppLe : ∀ ps, countAt (bside (pawnBd4 s bd fro tgt pr) (!s)) ps ≤
      countAt (bside bd (!s)) ps := by
    intro ps
    rw [hB4opp]
    exact opp_after_capture_le s bd tgt ps
  split
  · -- en-passant removal applies on top
    have hownE : bside (enpStep s (pawnBd4 s bd fro tgt pr) fro tgt) s =
        bside (pawnBd4 s bd fro tgt pr) s := by
      rw [enpStep, bside_bset_not]
    have hoppE : bside (enpStep s (pawnBd4 s bd fro tgt pr) fro tgt) (!s) =
        removeFirstP (fun pc => pc == (⟨tgt.1, fro.2, Kind.p⟩ : Piece))
          (bside (pawnBd4 s bd fro tgt pr) (!s)) := by
      rw [enpStep, bside_bset_same]
    refine ⟨?_, ?_, ?_⟩
    · refine @assemble_distinct s bd _ _ _ tgt hownE hoppE ?_ ?_ ?_ ?_ hd
      · exact hB4tgt
      · exact hB4le
      · have := countAt_removeFirstP_le
          (fun pc => pc == (⟨tgt.1, fro.2, Kind.p⟩ : Piece))
          (bside (pawnBd4 s bd fro tgt pr) (!s)) tgt
        omega
      · intro ps
        have h1 := countAt_removeFirstP_le
          (fun pc => pc == (⟨tgt.1, fro.2, Kind.p⟩ : Piece))
          (bside (pawnBd4 s bd fro tgt pr) (!s)) ps
        have h2 := hB4oppLe ps
        omega
    · rw [hownE, hB4k, hks]
    · rw [hoppE, kings_removeFirstP_of_not_king, hkopp]
      intro a ha hpa
      have : a = (⟨tgt.1, fro.2, Kind.p⟩ : Piece) := by simpa using hpa
      rw [this, Piece.t_mk]
      decide
  · refine ⟨?_, ?_, ?_⟩
    · exact @assemble_distinct s bd _ _ _ tgt rfl rfl hB4tgt hB4le hB4oppTgt
        hB4oppLe hd
    · rw [hB4k, hks]
    · exact hkopp

/-! ## Invariant bookkeeping for a genuine castling move: the king steps
from (5, home) to (tx, home) and the rook from (rx, home) to (nrx, home),
with (rx, nrx, tx) = (1, 4, 3) on the a-side and (8, 6, 7) on the h-side. -/

theorem isEmpty_one_of_bside {bd : Board} {ps : Pos} (s : Bool)
    (h1 : ∀ pc ∈ bside bd s, pc.pos ≠ ps)
    (h2 : ∀ pc ∈ bside bd (!s), pc.pos ≠ ps) :
    isEmpty bd [ps] = true := by
  cases s
  · exact isEmpty_one_iff.mpr ⟨h1, h2⟩
  · exact isEmpty_one_iff.mpr ⟨h2, h1⟩

theorem matched_castle_invariants {s : Bool} {bd : Board} {rx nrx tx : Int}
    (hd : distinctPos bd) (hks : kings (bside bd s) = 1)
    (hko : kings (bside bd (!s)) = 1)
    (hex : getType s bd ((5 : Int), down s) = some Kind.k)
    (hrook : (⟨rx, down s, Kind.r⟩ : Piece) ∈ bside bd s)
    (htoOwn : countAt (bside bd s) ((tx : Int), down s) = 0)
    (htoOpp : countAt (bside bd (!s)) ((tx : Int), down s) = 0)
    (hnrOwn : countAt (bside bd s) ((nrx : Int), down s) = 0)
    (hnrOpp : countAt (bside bd (!s)) ((nrx : Int), down s) = 0)
    (hrx5 : rx ≠ 5) (htxrx : tx ≠ rx) (htx5 : tx ≠ 5)
    (hnrxrx : nrx ≠ rx) (hnrxtx : nrx ≠ tx) (hnrx5 : nrx ≠ 5) :
    distinctPos (moveF 2 s
        (relocStep s (capt s bd ((tx : Int), down s)) ((5 : Int), down s)
          ((tx : Int), down s)) ((rx : Int), down s) ((nrx : Int), down s)
        Kind.p) ∧
      kings (bside (moveF 2 s
        (relocStep s (capt s bd ((tx : Int), down s)) ((5 : Int), down s)
          ((tx : Int), down s)) ((rx : Int), down s) ((nrx : Int), down s)
        Kind.p) s) = 1 ∧
      kings (bside (moveF 2 s
        (relocStep s (capt s bd ((tx : Int), down s)) ((5 : Int), down s)
          ((tx : Int), down s)) ((rx : Int), down s) ((nrx : Int), down s)
        Kind.p) (!s)) = 1 := by
  have hoppto : ∀ pc ∈ bside bd (!s), pc.pos ≠ ((tx : Int), down s) :=
    countAt_eq_zero_iff.mp htoOpp
  have hcapt1 : capt s bd ((tx : Int), down s) = bd := capt_eq_self hoppto
  rw [hcapt1]
  obtain ⟨l1, l2, hdec, hl1⟩ := getType_decomp hex
  have hbd2own : bside (relocStep s bd ((5 : Int), down s)
      ((tx : Int), down s)) s =
      l1 ++ (⟨((tx : Int), down s).1, ((tx : Int), down s).2, Kind.k⟩ :
        Piece) :: l2 := by
    rw [relocStep, bside_bset_same, hdec, reloc_append l2 hl1]
  have hbd2opp : bside (relocStep s bd ((5 : Int), down s)
      ((tx : Int), down s)) (!s) = bside bd (!s) := by
    rw [relocStep, bside_bset_not']
  -- the rook is the unique piece on its square, also after the king step
  have hrcnt : countAt (bside bd s) ((rx : Int), down s) = 1 := by
    have h1 := countAt_pos_of_mem hrook (by rw [Piece.pos_mk])
    have h2 := distinctPos_elim hd s ((rx : Int), down s)
    omega
  have hrcnt2 : countAt (bside (relocStep s bd ((5 : Int), down s)
      ((tx : Int), down s)) s) ((rx : Int), down s) = 1 := by
    rw [hbd2own, countAt_append, countAt_cons, Piece.pos_mk, Prod.mk.eta,
      if_neg (by simp [htxrx])]
    rw [hdec, countAt_append, countAt_cons, Piece.pos_mk, Prod.mk.eta,
      if_neg (by simp [Ne.symm hrx5])] at hrcnt
    omega
  have hrmem2 : (⟨rx, down s, Kind.r⟩ : Piece) ∈ bside
      (relocStep s bd ((5 : Int), down s) ((tx : Int), down s)) s := by
    rw [hbd2own]
    rw [hdec] at hrook
    rcases List.mem_append.mp hrook with hm | hm
    · exact List.mem_append_left _ hm
    · rcases List.mem_cons.mp hm with he | hm
      · exfalso
        have := congrArg Piece.t he
        simp [Piece.t_mk] at this
      · exact List.mem_append_right _ (List.mem_cons_of_mem _ hm)
  have hfind2 : (bside (relocStep s bd ((5 : Int), down s)
      ((tx : Int), down s)) s).find? (fun pc => pc.pos ==
        ((rx : Int), down s)) = some ⟨rx, down s, Kind.r⟩ := by
    refine find?_eq_of_unique ?_ hrmem2 (by rw [Piece.pos_mk]; simp)
    exact hrcnt2
  have hgt2 : getType s (relocStep s bd ((5 : Int), down s)
      ((tx : Int), down s)) ((rx : Int), down s) = some Kind.r := by
    rw [getType, hfind2, Option.map_some', Piece.t_mk]
  have hoppnr : ∀ pc ∈ bside (relocStep s bd ((5 : Int), down s)
      ((tx : Int), down s)) (!s), pc.pos ≠ ((nrx : Int), down s) := by
    rw [hbd2opp]
    exact countAt_eq_zero_iff.mp hnrOpp
  have hcapt2 : capt s (relocStep s bd ((5 : Int), down s)
      ((tx : Int), down s)) ((nrx : Int), down s) =
      relocStep s bd ((5 : Int), down s) ((tx : Int), down s) :=
    capt_eq_self hoppnr
  have hgt2' : getType s (capt s (relocStep s bd ((5 : Int), down s)
      ((tx : Int), down s)) ((nrx : Int), down s)) ((rx : Int), down s) =
      some Kind.r := by
    rw [hcapt2]
    exact hgt2
  rw [show (2 : Nat) = 1 + 1 from rfl,
    moveF_succ_plain hgt2' (by decide) (by decide), hcapt2]
  -- decompose the rook relocation
  obtain ⟨m1, m2, mdec, hm1⟩ := getType_decomp hgt2
  have hfin : bside (relocStep s (relocStep s bd ((5 : Int), down s)
      ((tx : Int), down s)) ((rx : Int), down s) ((nrx : Int), down s)) s =
      m1 ++ (⟨((nrx : Int), down s).1, ((nrx : Int), down s).2, Kind.r⟩ :
        Piece) :: m2 := by
    rw [relocStep, bside_bset_same, mdec, reloc_append m2 hm1]
  have hfinopp : bside (relocStep s (relocStep s bd ((5 : Int), down s)
      ((tx : Int), down s)) ((rx : Int), down s) ((nrx : Int), down s))
      (!s) = bside bd (!s) := by
    rw [relocStep, bside_bset_not', hbd2opp]
  refine ⟨?_, ?_, ?_⟩
  · refine distinctPos_mk s ?_
    intro ps
    rw [hfin, hfinopp, countAt_append, countAt_cons, Piece.pos_mk,
      Prod.mk.eta]
    -- count equations for the intermediate and original lists
    have heq2 : countAt m1 ps + countAt m2 ps +
        (if ((rx : Int), down s) = ps then 1 else 0) =
        countAt l1 ps + countAt l2 ps +
          (if ((tx : Int), down s) = ps then 1 else 0) := by
      have e1 : countAt (bside (relocStep s bd ((5 : Int), down s)
          ((tx : Int), down s)) s) ps = countAt m1 ps + (countAt m2 ps +
            (if ((rx : Int), down s) = ps then 1 else 0)) := by
        rw [mdec, countAt_append, countAt_cons, Piece.pos_mk, Prod.mk.eta]
      have e2 : countAt (bside (relocStep s bd ((5 : Int), down s)
          ((tx : Int), down s)) s) ps = countAt l1 ps + (countAt l2 ps +
            (if ((tx : Int), down s) = ps then 1 else 0)) := by
        rw [hbd2own, countAt_append, countAt_cons, Piece.pos_mk,
          Prod.mk.eta]
      omega
    have heq0 : countAt (bside bd s) ps = countAt l1 ps + (countAt l2 ps +
        (if ((5 : Int), down s) = ps then 1 else 0)) := by
      rw [hdec, countAt_append, countAt_cons, Piece.pos_mk, Prod.mk.eta]
    have hsum := distinctPos_elim hd s ps
    have hto1 : countAt (bside bd s) ((tx : Int), down s) = 0 := htoOwn
    by_cases hnr : ps = ((nrx : Int), down s)
    · subst hnr
      rw [if_pos rfl] at *
      rw [if_neg (by simp [Ne.symm hnrxrx])] at heq2
      rw [if_neg (by simp [Ne.symm hnrxtx])] at heq2
      rw [if_neg (by simp [Ne.symm hnrx5])] at heq0
      omega
    · rw [if_neg (fun hcon => hnr hcon.symm)]
      by_cases htxc : ps = ((tx : Int), down s)
      · subst htxc
        rw [if_pos rfl] at heq2
        rw [if_neg (by simp [Ne.symm htxrx])] at heq2
        rw [if_neg (by simp [Ne.symm htx5])] at heq0
        rw [heq0] at hto1
        omega
      · rw [if_neg (show ¬((tx : Int), down s) = ps from
          fun hcon => htxc hcon.symm)] at heq2
        split_ifs at heq2 heq0 <;> omega
  · have k1 : kings (bside (relocStep s (relocStep s bd ((5 : Int), down s)
        ((tx : Int), down s)) ((rx : Int), down s) ((nrx : Int), down s))
        s) = kings (bside (relocStep s bd ((5 : Int), down s)
        ((tx : Int), down s)) s) := by
      rw [relocStep, bside_bset_same, kings_reloc]
    have k2 : kings (bside (relocStep s bd ((5 : Int), down s)
        ((tx : Int), down s)) s) = kings (bside bd s) := by
      rw [relocStep, bside_bset_same, kings_reloc]
    rw [k1, k2, hks]
  · rw [hfinopp, hko]

/-! ## Refutation of the cross-side castling destinations: after the king
lands on the opposite home rank, the guarding rook of that corner attacks
the landing square, so the self-check test rejects the move. -/

theorem removeFirstP_subset {pr : Piece → Bool} {pc : Piece} :
    ∀ {l : List Piece}, pc ∈ removeFirstP pr l → pc ∈ l
  | [], h => absurd h (List.not_mem_nil pc)
  | c :: l, h => by
      rw [removeFirstP] at h
      split at h
      · exact List.mem_cons_of_mem c h
      · rcases List.mem_cons.mp h with rfl | hm
        · exact List.mem_cons_self pc l
        · exact List.mem_cons_of_mem c (removeFirstP_subset hm)

theorem mem_reloc_of_ne {fro tgt : Pos} {pc : Piece} :
    ∀ {l : List Piece}, pc ∈ l → pc.pos ≠ fro → pc ∈ reloc l fro tgt
  | [], h, _ => absurd h (List.not_mem_nil pc)
  | c :: l, h, hne => by
      rw [reloc]
      by_cases hcf : c.pos = fro
      · rw [if_pos hcf]
        rcases List.mem_cons.mp h with rfl | hm
        · exact absurd hcf hne
        · exact List.mem_cons_of_mem _ hm
      · rw [if_neg hcf]
        rcases List.mem_cons.mp h with rfl | hm
        · exact List.mem_cons_self pc _
        · exact List.mem_cons_of_mem c (mem_reloc_of_ne hm hne)

theorem ray_head_mem (bd : Board) (x y dx dy : Int) (n : Nat) :
    (x + dx, y + dy) ∈ ray bd x y dx dy (n + 1) := by
  rw [ray]
  exact List.mem_cons_self _ _

theorem ray_second_mem {bd : Board} {x y dx dy : Int} {n : Nat}
    (he : isEmpty bd [(x + dx, y + dy)] = true) :
    (x + dx + dx, y + dy + dy) ∈ ray bd x y dx dy (n + 2) := by
  rw [ray, he, if_pos rfl]
  exact List.mem_cons_of_mem _ (ray_head_mem bd (x + dx) (y + dy) dx dy n)

/-- The corner rook of file 1 attacks the a-side castling square of its
rank as soon as the square between them is empty. -/
theorem rook_sees_aside {nb : Board} {oh : Int}
    (he : isEmpty nb [((2 : Int), oh)] = true) :
    ((3 : Int), oh) ∈ rookMoves nb 1 oh := by
  rw [rookMoves]
  refine List.mem_append_left _ (List.mem_append_left _
    (List.mem_append_left _ ?_))
  have h2 : ((1 : Int) + 1, oh + 0) = ((2 : Int), oh) := by norm_num
  have h3 : ((1 : Int) + 1 + 1, oh + 0 + 0) = ((3 : Int), oh) := by norm_num
  have hmem := @ray_second_mem nb 1 oh 1 0 5 (by rw [h2]; exact he)
  rw [h3] at hmem
  exact hmem

/-- The corner rook of file 8 attacks the adjacent h-side castling square
of its rank unconditionally. -/
theorem rook_sees_hside (nb : Board) (oh : Int) :
    ((7 : Int), oh) ∈ rookMoves nb 8 oh := by
  rw [rookMoves]
  refine List.mem_append_left _ (List.mem_append_left _
    (List.mem_append_right _ ?_))
  have h7 : ((8 : Int) + -1, oh + 0) = ((7 : Int), oh) := by norm_num
  have hmem := ray_head_mem nb 8 oh (-1) 0 6
  rw [h7] at hmem
  exact hmem

/-- Core refutation for a cross-side castling destination (cx, opposite
home rank): the mover's unique king lands there, the opposing corner rook
at (gx, opposite home rank) survives the move and still sees the landing
square (hray, with ws the squares whose emptiness the sight needs), so
the check detector reports the mover in check on the post-move board. -/
theorem foreign_castle_check {s : Bool} {bd : Board} {fro fro2 tgt2 : Pos}
    {cx gx : Int} {ws : List Pos}
    (hks : kings (bside bd s) = 1)
    (hex : getType s bd fro = some Kind.k)
    (hrook : (⟨gx, down (!s), Kind.r⟩ : Piece) ∈ bside bd (!s))
    (hgcx : gx ≠ cx)
    (hf2 : fro2.2 = down s) (ht2 : tgt2.2 = down s)
    (hemp : ∀ w ∈ ws, w.2 ≠ down s ∧ w ≠ ((cx, down (!s)) : Pos) ∧
      (∀ pc ∈ bside bd s, pc.pos ≠ w) ∧ (∀ pc ∈ bside bd (!s), pc.pos ≠ w))
    (hray : ∀ nb : Board,
      (∀ w ∈ ws, (∀ pc ∈ bside nb s, pc.pos ≠ w) ∧
        (∀ pc ∈ bside nb (!s), pc.pos ≠ w)) →
      ((cx, down (!s)) : Pos) ∈ rookMoves nb gx (down (!s))) :
    pyBool (isChecked s (moveF 2 s
      (relocStep s (capt s bd ((cx, down (!s)) : Pos)) fro
        ((cx, down (!s)) : Pos)) fro2 tgt2 Kind.p)) = true := by
  have hdd : down s ≠ down (!s) := by cases s <;> decide
  have hex1 : getType s (capt s bd ((cx, down (!s)) : Pos)) fro
      = some Kind.k := by
    rw [getType_capt_same]; exact hex
  obtain ⟨l1, l2, hdec, hl1⟩ := getType_decomp hex1
  rw [bside_capt_same] at hdec
  have hbd2own : bside (relocStep s (capt s bd ((cx, down (!s)) : Pos)) fro
      ((cx, down (!s)) : Pos)) s =
      l1 ++ (⟨cx, down (!s), Kind.k⟩ : Piece) :: l2 := by
    rw [relocStep, bside_bset_same, bside_capt_same, hdec,
      reloc_append l2 hl1]
  have hbd2opp : bside (relocStep s (capt s bd ((cx, down (!s)) : Pos)) fro
      ((cx, down (!s)) : Pos)) (!s) =
      removeFirstP (fun pc => pc.pos == ((cx, down (!s)) : Pos))
        (bside bd (!s)) := by
    rw [relocStep, bside_bset_not', capt, bside_bset_same]
  have hk2 : kings (bside (relocStep s (capt s bd ((cx, down (!s)) : Pos))
      fro ((cx, down (!s)) : Pos)) s) = 1 := by
    rw [relocStep, bside_bset_same, bside_capt_same, kings_reloc]
    exact hks
  have hkneqf2 : (⟨cx, down (!s), Kind.k⟩ : Piece).pos ≠ fro2 := by
    rw [Piece.pos_mk]
    intro hcon
    have h22 := congrArg Prod.snd hcon
    dsimp only at h22
    rw [hf2] at h22
    exact hdd h22.symm
  have hrneq1 : (⟨gx, down (!s), Kind.r⟩ : Piece).pos ≠
      ((cx, down (!s)) : Pos) := by
    rw [Piece.pos_mk]
    intro hcon
    exact hgcx (congrArg Prod.fst hcon)
  have hrneq2 : (⟨gx, down (!s), Kind.r⟩ : Piece).pos ≠ tgt2 := by
    rw [Piece.pos_mk]
    intro hcon
    have h22 := congrArg Prod.snd hcon
    dsimp only at h22
    rw [ht2] at h22
    exact hdd h22.symm
  have hrook2 : (⟨gx, down (!s), Kind.r⟩ : Piece) ∈ bside (relocStep s
      (capt s bd ((cx, down (!s)) : Pos)) fro ((cx, down (!s)) : Pos))
      (!s) := by
    rw [hbd2opp]
    exact mem_removeFirstP hrook (beq_eq_false_iff_ne.mpr hrneq1)
  have hnk2 : ∀ pc ∈ bside (relocStep s (capt s bd ((cx, down (!s)) : Pos))
      fro ((cx, down (!s)) : Pos)) s, pc.pos = fro2 → pc.t ≠ Kind.k := by
    intro pc hm hp hk
    have hkm : (⟨cx, down (!s), Kind.k⟩ : Piece) ∈ bside (relocStep s
        (capt s bd ((cx, down (!s)) : Pos)) fro
        ((cx, down (!s)) : Pos)) s := by
      rw [hbd2own]
      exact List.mem_append_right _ (List.mem_cons_self _ _)
    have hpk := king_eq_of_unique hk2 hm hk hkm
      (Piece.t_mk cx (down (!s)) Kind.k)
    rw [hpk] at hp
    exact hkneqf2 hp
  have key : ∀ nb : Board,
      bside nb (!s) = removeFirstP (fun pc => pc.pos == tgt2)
        (bside (relocStep s (capt s bd ((cx, down (!s)) : Pos)) fro
          ((cx, down (!s)) : Pos)) (!s)) →
      (bside nb s = bside (relocStep s (capt s bd ((cx, down (!s)) : Pos))
          fro ((cx, down (!s)) : Pos)) s ∨
        bside nb s = reloc (bside (relocStep s (capt s bd
          ((cx, down (!s)) : Pos)) fro ((cx, down (!s)) : Pos)) s)
          fro2 tgt2) →
      pyBool (isChecked s nb) = true := by
    intro nb hOpp hOwn
    have hkmem : (⟨cx, down (!s), Kind.k⟩ : Piece) ∈ bside nb s := by
      rcases hOwn with hOwn | hOwn <;> rw [hOwn]
      · rw [hbd2own]
        exact List.mem_append_right _ (List.mem_cons_self _ _)
      · refine mem_reloc_of_ne ?_ hkneqf2
        rw [hbd2own]
        exact List.mem_append_right _ (List.mem_cons_self _ _)
    have hkc : kings (bside nb s) = 1 := by
      rcases hOwn with hOwn | hOwn <;> rw [hOwn]
      · exact hk2
      · rw [kings_reloc]; exact hk2
    have hfindk : (bside nb s).find? (fun pc => pc.t == Kind.k) =
        some ⟨cx, down (!s), Kind.k⟩ :=
      find?_eq_of_unique hkc hkmem (by simp [Piece.t_mk])
    have hrookF : (⟨gx, down (!s), Kind.r⟩ : Piece) ∈ bside nb (!s) := by
      rw [hOpp]
      exact mem_removeFirstP hrook2 (beq_eq_false_iff_ne.mpr hrneq2)
    have hempF : ∀ w ∈ ws, (∀ pc ∈ bside nb s, pc.pos ≠ w) ∧
        (∀ pc ∈ bside nb (!s), pc.pos ≠ w) := by
      intro w hw
      obtain ⟨hw1, hw2, hw3, hw4⟩ := hemp w hw
      have hbd2w : ∀ pc ∈ bside (relocStep s (capt s bd
          ((cx, down (!s)) : Pos)) fro ((cx, down (!s)) : Pos)) s,
          pc.pos ≠ w := by
        intro pc hm
        rw [hbd2own] at hm
        rcases List.mem_append.mp hm with hm | hm
        · exact hw3 pc (by rw [hdec]; exact List.mem_append_left _ hm)
        · rcases List.mem_cons.mp hm with rfl | hm
          · rw [Piece.pos_mk]
            exact fun hcon => hw2 hcon.symm
          · refine hw3 pc ?_
            rw [hdec]
            exact List.mem_append_right _ (List.mem_cons_of_mem _ hm)
      constructor
      · intro pc hm
        rcases hOwn with hOwn | hOwn
        · rw [hOwn] at hm
          exact hbd2w pc hm
        · rw [hOwn] at hm
          rcases reloc_mem_cases hm with hin | ⟨q0, hq0, hqp, rfl⟩
          · exact hbd2w pc hin
          · rw [Piece.pos_mk]
            intro hcon
            have h22 := congrArg Prod.snd hcon
            dsimp only at h22
            apply hw1
            rw [← h22]
            exact ht2
      · intro pc hm
        rw [hOpp] at hm
        have hm2 := removeFirstP_subset hm
        rw [hbd2opp] at hm2
        exact hw4 pc (removeFirstP_subset hm2)
    have hatt := hray nb hempF
    rw [isChecked, hfindk, Option.map_some']
    show (bside nb (!s)).any _ = true
    rw [List.any_eq_true]
    refine ⟨⟨gx, down (!s), Kind.r⟩, hrookF, ?_⟩
    simpa using hatt
  have hr : fro2.2 ≠ 4 + (if s then (1 : Int) else 0) := by
    rw [hf2]; cases s <;> decide
  have hup : tgt2.2 ≠ up s := by
    rw [ht2]; cases s <;> decide
  rw [show (2 : Nat) = 1 + 1 from rfl]
  rcases @inner_shape 1 s (relocStep s (capt s bd ((cx, down (!s)) : Pos))
      fro ((cx, down (!s)) : Pos)) fro2 tgt2 hr hup hnk2 with hA | hB
  · rw [hA]
    refine key _ ?_ (Or.inr ?_)
    · rw [relocStep, bside_bset_not', capt, bside_bset_same]
    · rw [relocStep, bside_bset_same, bside_capt_same]
  · rw [hB]
    refine key _ ?_ (Or.inl ?_)
    · rw [capt, bside_bset_same]
    · rw [capt, bside_bset_not]

/-- With one king per side, the mover's king origin is pinned to the home
square recorded by an honest castling flag. -/
theorem king_home {s : Bool} {bd : Board} {fro : Pos}
    (hks : kings (bside bd s) = 1)
    (hex : getType s bd fro = some Kind.k)
    (hkh : (⟨5, down s, Kind.k⟩ : Piece) ∈ bside bd s) :
    fro = ((5 : Int), down s) := by
  have hkmem := getType_some_mem hex
  have heqk := king_eq_of_unique hks hkmem (Piece.t_mk fro.1 fro.2 Kind.k)
    hkh (Piece.t_mk 5 (down s) Kind.k)
  rw [Piece.mk.injEq] at heqk
  obtain ⟨hf1, hf2, -⟩ := heqk
  rw [← hf1, ← hf2]

/-- A cross-side a-side castling destination never passes the self-check
test: the opposite corner rook at file 1 gives check through the empty
square (2, opposite home rank). -/
theorem foreign_aside_contra {s : Bool} {bd : Board} {fro fro2 tgt2 : Pos}
    (hks : kings (bside bd s) = 1)
    (hex : getType s bd fro = some Kind.k)
    (hrk : (⟨1, down (!s), Kind.r⟩ : Piece) ∈ bside bd (!s))
    (hg1 : ∀ pc ∈ bside bd s, pc.pos ≠ ((2 : Int), down (!s)))
    (hg2 : ∀ pc ∈ bside bd (!s), pc.pos ≠ ((2 : Int), down (!s)))
    (hf2 : fro2.2 = down s) (ht2 : tgt2.2 = down s)
    (hmt2 : pyBool (isChecked s (moveF 2 s
      (relocStep s (capt s bd (((3 : Int), down (!s)) : Pos)) fro
        (((3 : Int), down (!s)) : Pos)) fro2 tgt2 Kind.p)) = false) :
    False := by
  have hdd : down s ≠ down (!s) := by cases s <;> decide
  refine absurd ((@foreign_castle_check s bd fro fro2 tgt2 3 1
      [(((2 : Int), down (!s)) : Pos)] hks hex hrk (by decide) hf2 ht2
      ?_ ?_).symm.trans hmt2) (by decide)
  · intro w hw
    rw [List.mem_singleton] at hw
    subst hw
    refine ⟨fun hcon => hdd hcon.symm, ?_, hg1, hg2⟩
    intro hcon
    have h1 : (2 : Int) = 3 := congrArg Prod.fst hcon
    exact absurd h1 (by decide)
  · intro nb hnb
    have h21 := hnb _ (List.mem_singleton_self _)
    exact rook_sees_aside (isEmpty_one_of_bside s h21.1 h21.2)

/-- A cross-side h-side castling destination never passes the self-check
test: the opposite corner rook at file 8 gives check from the adjacent
square. -/
theorem foreign_hside_contra {s : Bool} {bd : Board} {fro fro2 tgt2 : Pos}
    (hks : kings (bside bd s) = 1)
    (hex : getType s bd fro = some Kind.k)
    (hrk : (⟨8, down (!s), Kind.r⟩ : Piece) ∈ bside bd (!s))
    (hf2 : fro2.2 = down s) (ht2 : tgt2.2 = down s)
    (hmt2 : pyBool (isChecked s (moveF 2 s
      (relocStep s (capt s bd (((7 : Int), down (!s)) : Pos)) fro
        (((7 : Int), down (!s)) : Pos)) fro2 tgt2 Kind.p)) = false) :
    False := by
  refine absurd ((@foreign_castle_check s bd fro fro2 tgt2 7 8
      ([] : List Pos) hks hex hrk (by decide) hf2 ht2 ?_ ?_).symm.trans
      hmt2) (by decide)
  · intro w hw
    exact absurd hw (List.not_mem_nil w)
  · intro nb hnb
    exact rook_sees_hside nb (down (!s))

/-- One validated move application preserves board sanity: positions stay
distinct and each side keeps exactly one king, provided the applied
promotion kind is not the king kind. -/
theorem move_preserves {s : Bool} {bd : Board} {fl : Flags} {fro tgt : Pos}
    {pr : Kind} (hpr : pr ≠ Kind.k)
    (hd : distinctPos bd) (hks : kings (bside bd s) = 1)
    (hko : kings (bside bd (!s)) = 1)
    (hfo : flagsOK bd fl.1)
    (hnc : pyBool (isChecked (!s) bd) = false)
    (hv : pyBool (isValidMove s bd fl fro tgt) = true) :
    distinctPos (move s bd fro tgt pr) ∧
      kings (bside (move s bd fro tgt pr) s) = 1 ∧
      kings (bside (move s bd fro tgt pr) (!s)) = 1 := by
  obtain ⟨hbnd, hocc, t0, hex, hraw, hmt⟩ := isValidMove_true_elim hv
  have hnk : ∀ a ∈ bside bd (!s), a.pos = tgt → a.t ≠ Kind.k :=
    no_king_capture hko hnc hex hraw
  have hex1 : getType s (capt s bd tgt) fro = some t0 := by
    rw [getType_capt_same]; exact hex
  rw [move, show (3 : Nat) = 2 + 1 from rfl]
  by_cases hk : t0 = Kind.k
  · subst hk
    have hraw2 : tgt ∈ castlePart s bd (some fl.1) ++ kingAdj fro.1 fro.2 :=
      hraw
    by_cases h2 : fro.1 - tgt.1 = 2
    · rw [moveF_succ_king_aside hex1 h2]
      rw [moveTest, Bool.not_eq_true', move, show (3 : Nat) = 2 + 1 from rfl,
        moveF_succ_king_aside hex1 h2] at hmt
      rcases List.mem_append.mp hraw2 with hcp | hadj
      swap
      · exact absurd h2 (kingAdj_small hadj).2
      obtain ⟨-, hbl⟩ := castlePart_elim hcp
      cases s with
      | false =>
          rcases hbl with ⟨htgt, hcs, hg, -⟩ | ⟨htgt, hcs, hg, -⟩ |
            ⟨htgt, hcs, hg, -⟩ | ⟨htgt, hcs, hg, -⟩ <;> subst htgt
          · have hfro := king_home hks hex (hfo.1 hcs).1
            subst hfro
            exact @matched_castle_invariants false bd 1 4 3 hd hks hko hex
              ((hfo.1 hcs).2)
              (countAt_eq_zero_iff.mpr (isOccupied_false_iff.mp hocc))
              (countAt_eq_zero_iff.mpr ((isEmpty_mem hg (by decide)).2))
              (countAt_eq_zero_iff.mpr ((isEmpty_mem hg (by decide)).1))
              (countAt_eq_zero_iff.mpr ((isEmpty_mem hg (by decide)).2))
              (by decide) (by decide) (by decide) (by decide) (by decide)
              (by decide)
          · exfalso
            rw [king_home hks hex (hfo.2.1 hcs).1] at h2
            exact absurd h2 (by decide)
          · exact (@foreign_aside_contra false bd fro ((1 : Int), down false)
              ((4 : Int), down false) hks hex ((hfo.2.2.1 hcs).2)
              ((isEmpty_mem hg (by decide)).1)
              ((isEmpty_mem hg (by decide)).2) rfl rfl hmt).elim
          · exact (@foreign_hside_contra false bd fro ((1 : Int), down false)
              ((4 : Int), down false) hks hex ((hfo.2.2.2 hcs).2) rfl rfl
              hmt).elim
      | true =>
          rcases hbl with ⟨htgt, hcs, hg, -⟩ | ⟨htgt, hcs, hg, -⟩ |
            ⟨htgt, hcs, hg, -⟩ | ⟨htgt, hcs, hg, -⟩ <;> subst htgt
          · exact (@foreign_aside_contra true bd fro ((1 : Int), down true)
              ((4 : Int), down true) hks hex ((hfo.1 hcs).2)
              ((isEmpty_mem hg (by decide)).2)
              ((isEmpty_mem hg (by decide)).1) rfl rfl hmt).elim
          · exact (@foreign_hside_contra true bd fro ((1 : Int), down true)
              ((4 : Int), down true) hks hex ((hfo.2.1 hcs).2) rfl rfl
              hmt).elim
          · have hfro := king_home hks hex (hfo.2.2.1 hcs).1
            subst hfro
            exact @matched_castle_invariants true bd 1 4 3 hd hks hko hex
              ((hfo.2.2.1 hcs).2)
              (countAt_eq_zero_iff.mpr (isOccupied_false_iff.mp hocc))
              (countAt_eq_zero_iff.mpr ((isEmpty_mem hg (by decide)).1))
              (countAt_eq_zero_iff.mpr ((isEmpty_mem hg (by decide)).2))
              (countAt_eq_zero_iff.mpr ((isEmpty_mem hg (by decide)).1))
              (by decide) (by decide) (by decide) (by decide) (by decide)
              (by decide)
          · exfalso
            rw [king_home hks hex (hfo.2.2.2 hcs).1] at h2
            exact absurd h2 (by decide)
    · by_cases h3 : tgt.1 - fro.1 = 2
      · rw [moveF_succ_king_hside hex1 h2 h3]
        rw [moveTest, Bool.not_eq_true', move,
          show (3 : Nat) = 2 + 1 from rfl,
          moveF_succ_king_hside hex1 h2 h3] at hmt
        rcases List.mem_append.mp hraw2 with hcp | hadj
        swap
        · exact absurd h3 (kingAdj_small hadj).1
        obtain ⟨-, hbl⟩ := castlePart_elim hcp
        cases s with
        | false =>
            rcases hbl with ⟨htgt, hcs, hg, -⟩ | ⟨htgt, hcs, hg, -⟩ |
              ⟨htgt, hcs, hg, -⟩ | ⟨htgt, hcs, hg, -⟩ <;> subst htgt
            · exfalso
              rw [king_home hks hex (hfo.1 hcs).1] at h3
              exact absurd h3 (by decide)
            · have hfro := king_home hks hex (hfo.2.1 hcs).1
              subst hfro
              exact @matched_castle_invariants false bd 8 6 7 hd hks hko hex
                ((hfo.2.1 hcs).2)
                (countAt_eq_zero_iff.mpr (isOccupied_false_iff.mp hocc))
                (countAt_eq_zero_iff.mpr ((isEmpty_mem hg (by decide)).2))
                (countAt_eq_zero_iff.mpr ((isEmpty_mem hg (by decide)).1))
                (countAt_eq_zero_iff.mpr ((isEmpty_mem hg (by decide)).2))
                (by decide) (by decide) (by decide) (by decide) (by decide)
                (by decide)
            · exact (@foreign_aside_contra false bd fro
                ((8 : Int), down false) ((6 : Int), down false) hks hex
                ((hfo.2.2.1 hcs).2) ((isEmpty_mem hg (by decide)).1)
                ((isEmpty_mem hg (by decide)).2) rfl rfl hmt).elim
            · exact (@foreign_hside_contra false bd fro
                ((8 : Int), down false) ((6 : Int), down false) hks hex
                ((hfo.2.2.2 hcs).2) rfl rfl hmt).elim
        | true =>
            rcases hbl with ⟨htgt, hcs, hg, -⟩ | ⟨htgt, hcs, hg, -⟩ |
              ⟨htgt, hcs, hg, -⟩ | ⟨htgt, hcs, hg, -⟩ <;> subst htgt
            · exact (@foreign_aside_contra true bd fro
                ((8 : Int), down true) ((6 : Int), down true) hks hex
                ((hfo.1 hcs).2) ((isEmpty_mem hg (by decide)).2)
                ((isEmpty_mem hg (by decide)).1) rfl rfl hmt).elim
            · exact (@foreign_hside_contra true bd fro
                ((8 : Int), down true) ((6 : Int), down true) hks hex
                ((hfo.2.1 hcs).2) rfl rfl hmt).elim
            · exfalso
              rw [king_home hks hex (hfo.2.2.1 hcs).1] at h3
              exact absurd h3 (by decide)
            · have hfro := king_home hks hex (hfo.2.2.2 hcs).1
              subst hfro
              exact @matched_castle_invariants true bd 8 6 7 hd hks hko hex
                ((hfo.2.2.2 hcs).2)
                (countAt_eq_zero_iff.mpr (isOccupied_false_iff.mp hocc))
                (countAt_eq_zero_iff.mpr ((isEmpty_mem hg (by decide)).1))
                (countAt_eq_zero_iff.mpr ((isEmpty_mem hg (by decide)).2))
                (countAt_eq_zero_iff.mpr ((isEmpty_mem hg (by decide)).1))
                (by decide) (by decide) (by decide) (by decide) (by decide)
                (by decide)
      · rw [moveF_succ_king_still hex1 h2 h3]
        exact relocShape_invariants hd hks hko hnk hocc hex
  · by_cases hp : t0 = Kind.p
    · subst hp
      rw [moveF_succ_pawn hex1]
      exact pawnShape_invariants hd hks hko hnk hocc hex hpr
    · rw [moveF_succ_plain hex1 hk hp]
      exact relocShape_invariants hd hks hko hnk hocc hex

/-- One legal makeMove step preserves the play invariant, provided the
step's promotion kind is not the king kind. -/
theorem step_good {st : Bool × Board × Flags} {m : Mv}
    (hpr : m.2.2 ≠ Kind.k) (hg : Good st)
    (hv : pyBool (isValidMove st.1 st.2.1 st.2.2 m.1 m.2.1) = true) :
    Good (stepGame st m) := by
  obtain ⟨s, bd, fl⟩ := st
  obtain ⟨fro, tgt, pr⟩ := m
  obtain ⟨hd, hk1, hk2, hfo, hnc⟩ := hg
  have hks : kings (bside bd s) = 1 := by
    cases s
    · exact hk1
    · exact hk2
  have hko : kings (bside bd (!s)) = 1 := by
    cases s
    · exact hk2
    · exact hk1
  obtain ⟨hdn, hksn, hkon⟩ := move_preserves hpr hd hks hko hfo hnc hv
  refine ⟨hdn, ?_, ?_, flagsOK_updateFlags _ _ _ _ _, ?_⟩
  · cases s
    · exact hksn
    · exact hkon
  · cases s
    · exact hkon
    · exact hksn
  · obtain ⟨-, -, t0, -, -, hmt⟩ := isValidMove_true_elim hv
    have hsafe := moveTest_implies_safe hpr hmt
    show pyBool (isChecked (!(!s)) (move s bd fro tgt pr)) = false
    rw [Bool.not_not]
    exact hsafe

/-- The play invariant propagates along any move list that passes the
legality filter one step at a time, with no king-kind promotion. -/
theorem play_good : ∀ (ms : List Mv) (st : Bool × Board × Flags),
    Good st → (∀ m ∈ ms, m.2.2 ≠ Kind.k) → legalSeq st ms = true →
    Good (playGame st ms)
  | [], _, hg, _, _ => hg
  | m :: ms, st, hg, hk, hl => by
      rw [legalSeq, Bool.and_eq_true] at hl
      exact play_good ms (stepGame st m)
        (step_good (hk m (List.mem_cons_self m ms)) hg hl.1)
        (fun q hq => hk q (List.mem_cons_of_mem m hq)) hl.2

/-- The initial state satisfies the play invariant. -/
theorem good_init : Good initBoardVars := by
  refine ⟨distinctPos_of_nodup (by decide), by decide, by decide,
    ⟨fun _ => ⟨by decide, by decide⟩, fun _ => ⟨by decide, by decide⟩,
     fun _ => ⟨by decide, by decide⟩, fun _ => ⟨by decide, by decide⟩⟩,
    by decide⟩

/-- Nine moves that each pass the legality filter in turn: side 0 marches
the a-pawn to the last rank and promotes with the unvalidated kind "k". -/
def cexMoves : List Mv :=
  [((1, 7), (1, 5), Kind.q), ((2, 2), (2, 4), Kind.q),
   ((1, 5), (2, 4), Kind.q), ((8, 2), (8, 3), Kind.q),
   ((2, 4), (2, 3), Kind.q), ((8, 3), (8, 4), Kind.q),
   ((2, 3), (2, 2), Kind.q), ((8, 4), (8, 5), Kind.q),
   ((2, 2), (1, 1), Kind.k)]

/-- C4 counterexample: every move of cexMoves is validated by
isValidMove in the position it is applied to, yet after the last one (a
pawn promotion with the unvalidated kind "k") side 0 owns two kings, so
the claimed one-king-per-side invariant fails on a reachable board. -/
theorem reachable_board_invariants_cex :
    legalSeq initBoardVars cexMoves = true ∧
      kings (playGame initBoardVars cexMoves).2.1.1 = 2 := by decide

/-- C4 (amended with a promotion proviso): for every board reachable from
the initial state by a finite sequence of moves, each of which passes the
legality filter (isValidMove) in the position it is applied to and none
of which carries the king promotion kind, at most one piece occupies any
given square across both sides' collections and each side has exactly one
king. -/
theorem reachable_board_invariants (ms : List Mv)
    (hpr : ∀ m ∈ ms, m.2.2 ≠ Kind.k)
    (hl : legalSeq initBoardVars ms = true) :
    distinctPos (playGame initBoardVars ms).2.1 ∧
      kings (playGame initBoardVars ms).2.1.1 = 1 ∧
      kings (playGame initBoardVars ms).2.1.2 = 1 := by
  obtain ⟨h1, h2, h3, -, -⟩ := play_good ms initBoardVars good_init hpr hl
  exact ⟨h1, h2, h3⟩

/-- Witness for the amended C4 theorem at a concrete one-move game. -/
theorem reachable_board_invariants_witness :
    (∀ m ∈ ([(((5 : Int), (7 : Int)), ((5 : Int), (5 : Int)), Kind.q)] :
        List Mv), m.2.2 ≠ Kind.k) ∧
      legalSeq initBoardVars
        [(((5 : Int), (7 : Int)), ((5 : Int), (5 : Int)), Kind.q)] = true ∧
      (distinctPos (playGame initBoardVars
          [(((5 : Int), (7 : Int)), ((5 : Int), (5 : Int)), Kind.q)]).2.1 ∧
        kings (playGame initBoardVars
          [(((5 : Int), (7 : Int)), ((5 : Int), (5 : Int)),
            Kind.q)]).2.1.1 = 1 ∧
        kings (playGame initBoardVars
          [(((5 : Int), (7 : Int)), ((5 : Int), (5 : Int)),
            Kind.q)]).2.1.2 = 1) :=
  ⟨by decide, by decide,
    reachable_board_invariants
      [(((5 : Int), (7 : Int)), ((5 : Int), (5 : Int)), Kind.q)]
      (by decide) (by decide)⟩

end ChessLib
